import Mathlib

/-!
Verification of the dynamic task-orchestration engine of trace-station
(`src/workflow/services/orchestrated.graph.workflow.ts`, function
`createOrchestratedWorkflow` / `processTrace`).

The engine is embedded shallowly: the worker agents are abstracted as a
behavior function `(worker, task, attempt) ↦ Option AgentOutput` (`none`
models a thrown error on that attempt), and every observable action of the
scheduler (worker invocation, backoff delay, result recording, fallback
warning, synthesis invocation) is logged in an explicit event trace so that
temporal properties of the run can be stated over it.
-/

namespace TraceStation

/-- Opaque worker output payload (`AgentOutput` in the source); only its
identity matters to the engine, so it is modelled as a natural number. -/
abbrev AgentOutput := Nat

/-- A task of the orchestration plan (`OrchestrationTask` in
`agents/interfaces`): name, type, dependency names and the optional
custom-agent key.  Fields that the engine never reads (description,
priority, reason, customInstructions) are omitted. -/
structure OrchestrationTask where
  name : String
  type : String
  dependencies : List String
  customAgent : Option String := none
  deriving Repr, DecidableEq

/-- Observable actions of one engine run, in order. -/
inductive Event where
  /-- `agent.process(input)` called for `task`, `attempt`-th invocation
  (1-based), by the worker registered under `worker`. -/
  | invoke (worker : String) (task : String) (attempt : Nat)
  /-- the engine awaited a backoff of `ms` milliseconds before the next
  retry of `task`. -/
  | delay (task : String) (ms : Nat)
  /-- `state.taskResults[task] = out` was written and `task` added to the
  completed set. -/
  | record (task : String) (out : AgentOutput)
  /-- the `No agent found for task type` warning was reported for a task of
  the given type. -/
  | warn (taskType : String)
  /-- the orchestrator agent was invoked for synthesis. -/
  | synth
  deriving Repr, DecidableEq

/-- The mutable `WorkflowState` fields that the orchestrated workflow
touches (`graph.workflow.ts`): the per-task result map, the four dedicated
output fields, the synthesis result, the error field and the current step.
The opaque `trace` input and the `orchestration` plan object are factored
out as parameters of `execute`. -/
structure WorkflowState where
  taskResults : List (String × AgentOutput) := []
  analysis : Option AgentOutput := none
  context : Option AgentOutput := none
  diagnosis : Option AgentOutput := none
  recommendation : Option AgentOutput := none
  synthesis : Option AgentOutput := none
  error : Option String := none
  currentStep : String := "orchestration"
  deriving Repr, DecidableEq

/-- A fresh initial state, as built by the callers of the workflow. -/
def freshState : WorkflowState := {}

/-- Worker behavior: `behavior worker task attempt` is `some out` when the
`attempt`-th `process` call of the worker registered under `worker` on
`task` returns `out`, and `none` when it throws. -/
abbrev Behavior := String → String → Nat → Option AgentOutput

/-- The keys of the four standard worker agents created at workflow
construction (lines 78–97 of the source). -/
def standardTypes : List String := ["analysis", "context", "diagnosis", "recommendation"]

/-- Member names of `Object.prototype`, inherited by every plain object
literal: a property read for one of these names on an object with no own
property of that name still yields a truthy value (the inherited function,
or the prototype object itself for `__proto__`). -/
def objectPrototypeKeys : List String :=
  ["constructor", "hasOwnProperty", "isPrototypeOf", "propertyIsEnumerable",
   "toLocaleString", "toString", "valueOf", "__proto__",
   "__defineGetter__", "__defineSetter__", "__lookupGetter__",
   "__lookupSetter__"]

/-- The value a registry read finds through the prototype chain (e.g.
`workerAgents["toString"]`): truthy, so the `|| workerAgents.analysis`
fallback is skipped, but not an agent — it has no `process` method, so
every `agent.process(input)` call on it throws.  A behavior that faithfully
models the real agents therefore returns `none` on every call of this
worker id. -/
def protoWorker : String := "Object.prototype member"

/-- The worker registry `workerAgents`: JS property lookup on the object
literal holding the four standard agents (each identified by its own key)
spread together with the user-supplied `options.customAgents`, which
override on key collision.  `mkRegistry custom key` is `workerAgents[key]`:
an own key yields its agent; a key with no own property but inherited from
`Object.prototype` (such as `toString`) yields the truthy inherited
non-worker value, modelled as `protoWorker`; any other key is `undefined`. -/
def mkRegistry (custom : List (String × String)) : String → Option String :=
  fun key =>
    match custom.lookup key with
    | some w => some w
    | none =>
        if key ∈ standardTypes then some key
        else if key ∈ objectPrototypeKeys then some protoWorker
        else none

/-- `maxRetries` as computed at line 100 of the source:
`options.enableRetries ? 3 : 0`. -/
def maxRetriesOf (enableRetries : Bool) : Nat :=
  if enableRetries then 3 else 0

/-- Exponential backoff of lines 245–248:
`Math.min(1000 * Math.pow(2, retries - 1), 10000)`. -/
def backoffDelay (retries : Nat) : Nat :=
  min (1000 * 2 ^ (retries - 1)) 10000

/-- JavaScript truthiness of the optional `task.customAgent` string:
present and non-empty. -/
def truthyOpt : Option String → Bool
  | some s => s ≠ ""
  | none => false

/-- Worker resolution of lines 191–208: if `task.type === "custom"` and
`task.customAgent` is truthy, `workerAgents[task.customAgent] ||
workerAgents.analysis`; otherwise `workerAgents[task.type] ||
workerAgents.analysis`.  The boolean is `true` exactly when the dead-man
branch `if (!agent)` fires: the chosen agent is still undefined, the
warning is reported, and `workerAgents.analysis` (also undefined at that
point) is assigned. -/
def resolveAgent (reg : String → Option String) (task : OrchestrationTask) :
    Option String × Bool :=
  let a0 : Option String :=
    if task.type = "custom" ∧ truthyOpt task.customAgent then
      match reg (task.customAgent.getD "") with
      | some a => some a
      | none => reg "analysis"
    else
      match reg task.type with
      | some a => some a
      | none => reg "analysis"
  match a0 with
  | some a => (some a, false)
  | none => (none, true)

/-- JavaScript keyed assignment `m[k] = v` (object property write, and also
`Map.set`): overwrite the value in place when the key exists (keeping its
original position), else append.  Used for `state.taskResults[taskName] =
result` and for `taskMap.set(task.name, task)`. -/
def objSet {β : Type} (m : List (String × β)) (k : String) (v : β) :
    List (String × β) :=
  if (m.lookup k).isSome then
    m.map (fun p => if p.1 = k then (k, v) else p)
  else
    m ++ [(k, v)]

/-- Lines 153–165: `taskMap.set(task.name, task)` for each task of the plan
in order. -/
def buildTaskMap (plan : List OrchestrationTask) :
    List (String × OrchestrationTask) :=
  plan.foldl (fun m task => objSet m task.name task) []

/-- Lines 254–295: store the result in `state.taskResults` and mirror it
into the dedicated state field when the task type is one of the four
standard ones. -/
def storeResult (st : WorkflowState) (taskName taskType : String)
    (out : AgentOutput) : WorkflowState :=
  let st1 := { st with taskResults := objSet st.taskResults taskName out }
  if taskType = "analysis" then { st1 with analysis := some out }
  else if taskType = "context" then { st1 with context := some out }
  else if taskType = "diagnosis" then { st1 with diagnosis := some out }
  else if taskType = "recommendation" then { st1 with recommendation := some out }
  else st1

/-- Body of the retry loop of lines 222–252, recursing on the countdown
`left = maxRetries + 1 - retries` of still-allowed attempts (the loop
condition `!success && retries <= maxRetries` holds exactly while the
countdown is positive).  `retries` is the current value of the `retries`
counter (the next invocation is attempt `retries + 1`).  Returns the events
of the loop (invocations and awaited backoffs), the result (`none` when
every attempt threw) and the final value of `retries`. -/
def retryGo (behavior : Behavior) (agent taskName : String) (maxRetries : Nat) :
    Nat → Nat → List Event × Option AgentOutput × Nat
  | 0, retries => ([], none, retries)
  | left + 1, retries =>
      match behavior agent taskName (retries + 1) with
      | some out => ([Event.invoke agent taskName (retries + 1)], some out, retries)
      | none =>
          let dly : List Event :=
            if retries + 1 ≤ maxRetries then
              [Event.delay taskName (backoffDelay (retries + 1))]
            else []
          let rest := retryGo behavior agent taskName maxRetries left (retries + 1)
          (Event.invoke agent taskName (retries + 1) :: dly ++ rest.1,
            rest.2.1, rest.2.2)

/-- The retry loop of lines 222–252, entered with the `retries` counter at
`retries`. -/
def retryLoop (behavior : Behavior) (agent taskName : String)
    (maxRetries retries : Nat) : List Event × Option AgentOutput × Nat :=
  retryGo behavior agent taskName maxRetries (maxRetries + 1 - retries) retries

/-- `TaskExecutionError` message of lines 304–306. -/
def failMsg (taskName : String) (retries : Nat) : String :=
  "Failed to execute task: " ++ taskName ++ " after " ++ toString retries ++ " retries"

/-- Deadlock message of lines 322–326. -/
def deadlockMsg (remaining : List String) : String :=
  "Possible dependency cycle detected in tasks: " ++ String.intercalate ", " remaining

/-- Outcome of one `for (const [taskName, task] of taskMap.entries())` pass
(lines 174–309): either an error was thrown (fatal task failure, or the
undefined-agent crash), or the pass finished with updated state, completed
list and `madeProgress` flag.  The event list holds the pass's events up to
the point of return. -/
inductive PassOutcome where
  | thrown (msg : String) (st : WorkflowState) (completed : List String)
      (events : List Event)
  | normal (st : WorkflowState) (completed : List String) (madeProgress : Bool)
      (events : List Event)
  deriving Repr, DecidableEq

/-- One pass of the scheduler over the (remaining) task-map entries,
lines 174–309.  A task already completed is skipped; a task whose
dependencies are not all completed is skipped; otherwise the worker is
resolved, the retry loop runs, and on success the result is stored and the
task marked completed (else the run throws `failMsg`). -/
def runPass (behavior : Behavior) (reg : String → Option String)
    (maxRetries : Nat) (entries : List (String × OrchestrationTask))
    (st : WorkflowState) (completed : List String) (madeProgress : Bool) :
    PassOutcome :=
  match entries with
  | [] => PassOutcome.normal st completed madeProgress []
  | (taskName, task) :: rest =>
    if completed.contains taskName then
      runPass behavior reg maxRetries rest st completed madeProgress
    else if task.dependencies.all (fun d => completed.contains d) then
      match resolveAgent reg task with
      | (some agentId, _) =>
          let r := retryLoop behavior agentId taskName maxRetries 0
          match r.2.1 with
          | some out =>
              let st1 := storeResult st taskName task.type out
              let completed1 := completed ++ [taskName]
              match runPass behavior reg maxRetries rest st1 completed1 true with
              | PassOutcome.thrown m s c evs =>
                  PassOutcome.thrown m s c (r.1 ++ Event.record taskName out :: evs)
              | PassOutcome.normal s c mp evs =>
                  PassOutcome.normal s c mp (r.1 ++ Event.record taskName out :: evs)
          | none =>
              PassOutcome.thrown (failMsg taskName r.2.2) st completed r.1
      | (none, _) =>
          PassOutcome.thrown "TypeError: agent is undefined" st completed
            [Event.warn task.type]
    else
      runPass behavior reg maxRetries rest st completed madeProgress

/-- Outcome of the scheduler while-loop of lines 171–328. -/
inductive LoopOutcome where
  | thrown (msg : String) (st : WorkflowState) (events : List Event)
  | done (st : WorkflowState) (completed : List String) (events : List Event)
  | fuelOut (st : WorkflowState) (completed : List String) (events : List Event)
  deriving Repr, DecidableEq

/-- The `while (completedTasks.size < taskMap.size)` loop of lines 171–328.
Each iteration runs one pass; if the pass made no progress while incomplete
tasks remain, the deadlock error is thrown.  The source loop terminates
because every iteration either throws or completes at least one task; the
`fuel` argument makes that termination measure explicit, and
`runLoop_no_fuelOut` below proves that the fuel used by `execute` is never
exhausted. -/
def runLoop (behavior : Behavior) (reg : String → Option String)
    (maxRetries : Nat) (entries : List (String × OrchestrationTask))
    (fuel : Nat) (st : WorkflowState) (completed : List String) : LoopOutcome :=
  if completed.length < entries.length then
    match fuel with
    | 0 => LoopOutcome.fuelOut st completed []
    | fuel' + 1 =>
      match runPass behavior reg maxRetries entries st completed false with
      | PassOutcome.thrown msg st1 _ evs => LoopOutcome.thrown msg st1 evs
      | PassOutcome.normal st1 completed1 made evs =>
        if made = false ∧ completed1.length < entries.length then
          LoopOutcome.thrown
            (deadlockMsg ((entries.map Prod.fst).filter
              (fun k => ¬ completed1.contains k)))
            st1 evs
        else
          match runLoop behavior reg maxRetries entries fuel' st1 completed1 with
          | LoopOutcome.thrown m s e => LoopOutcome.thrown m s (evs ++ e)
          | LoopOutcome.done s c e => LoopOutcome.done s c (evs ++ e)
          | LoopOutcome.fuelOut s c e => LoopOutcome.fuelOut s c (evs ++ e)
  else LoopOutcome.done st completed []

/-- The whole of `processTrace` from line 149 on, given an already-created
plan: build the task map, run the scheduler loop, then the synthesis step
of lines 330–369 (`if (state.analysis || state.diagnosis ||
state.recommendation)` guard; a thrown synthesis error is swallowed), and
the outer catch of lines 376–380 which writes the error message into
`state.error`.  `synthBehavior` is the orchestrator agent's synthesis call:
`some out` returns, `none` throws. -/
def execute (behavior : Behavior) (synthBehavior : Option AgentOutput)
    (reg : String → Option String) (maxRetries : Nat)
    (plan : List OrchestrationTask) (initialState : WorkflowState) :
    WorkflowState × List Event :=
  let st0 := { initialState with currentStep := "executing_tasks" }
  let entries := buildTaskMap plan
  match runLoop behavior reg maxRetries entries (entries.length + 1) st0 [] with
  | LoopOutcome.thrown msg st1 evs => ({ st1 with error := some msg }, evs)
  | LoopOutcome.fuelOut st1 _ evs => ({ st1 with error := some "fuel exhausted" }, evs)
  | LoopOutcome.done st1 _ evs =>
    let st2 := { st1 with currentStep := "synthesis" }
    if st2.analysis.isSome ∨ st2.diagnosis.isSome ∨ st2.recommendation.isSome then
      match synthBehavior with
      | some out =>
          ({ st2 with synthesis := some out, currentStep := "complete" },
            evs ++ [Event.synth])
      | none => ({ st2 with currentStep := "complete" }, evs ++ [Event.synth])
    else ({ st2 with currentStep := "complete" }, evs)

/-- Events carried by a pass outcome. -/
def PassOutcome.events : PassOutcome → List Event
  | PassOutcome.thrown _ _ _ e => e
  | PassOutcome.normal _ _ _ e => e

/-- Completed list carried by a pass outcome. -/
def PassOutcome.completedOut : PassOutcome → List String
  | PassOutcome.thrown _ _ c _ => c
  | PassOutcome.normal _ c _ _ => c

/-- Workflow state carried by a pass outcome. -/
def PassOutcome.stateOut : PassOutcome → WorkflowState
  | PassOutcome.thrown _ s _ _ => s
  | PassOutcome.normal s _ _ _ => s

/-- Events carried by a loop outcome. -/
def LoopOutcome.events : LoopOutcome → List Event
  | LoopOutcome.thrown _ _ e => e
  | LoopOutcome.done _ _ e => e
  | LoopOutcome.fuelOut _ _ e => e

/-- Workflow state carried by a loop outcome. -/
def LoopOutcome.stateOut : LoopOutcome → WorkflowState
  | LoopOutcome.thrown _ s _ => s
  | LoopOutcome.done s _ _ => s
  | LoopOutcome.fuelOut s _ _ => s

/-- `true` on a pass outcome that finished normally having dispatched and
completed no task. -/
def passNoProgress : PassOutcome → Bool
  | PassOutcome.normal _ _ false _ => true
  | _ => false

/-- Scan a trace checking dependency ordering: every `invoke` of a task
found in the task map requires all of that task's dependencies to have been
recorded already (`comp` is the set of task names recorded so far). -/
def depsRespected (tm : List (String × OrchestrationTask)) :
    List Event → (String → Bool) → Bool
  | [], _ => true
  | Event.invoke _ t _ :: rest, comp =>
      (match tm.lookup t with
       | some task => task.dependencies.all comp
       | none => true) && depsRespected tm rest comp
  | Event.record t _ :: rest, comp =>
      depsRespected tm rest (fun x => x == t || comp x)
  | _ :: rest, comp => depsRespected tm rest comp

/-- The recorded-set after scanning a trace, starting from `comp`. -/
def afterRecords : List Event → (String → Bool) → (String → Bool)
  | [], comp => comp
  | Event.record t _ :: rest, comp => afterRecords rest (fun x => x == t || comp x)
  | _ :: rest, comp => afterRecords rest comp

/-- Scan a trace checking write-once and no-re-execution: no task is
recorded twice, and no task is invoked after it has been recorded (`seen`
is the list of task names recorded so far). -/
def recordsOnce : List Event → List String → Bool
  | [], _ => true
  | Event.record t _ :: rest, seen =>
      (!seen.contains t) && recordsOnce rest (t :: seen)
  | Event.invoke _ t _ :: rest, seen =>
      (!seen.contains t) && recordsOnce rest seen
  | _ :: rest, seen => recordsOnce rest seen

/-- The recorded task names of a trace, most recent first, appended in
front of `seen`. -/
def seenAfter : List Event → List String → List String
  | [], seen => seen
  | Event.record t _ :: rest, seen => seenAfter rest (t :: seen)
  | _ :: rest, seen => seenAfter rest seen

/-- Number of worker invocations for task `t` in a trace. -/
def invokeCount (t : String) : List Event → Nat
  | [] => 0
  | Event.invoke _ u _ :: rest => (if u = t then 1 else 0) + invokeCount t rest
  | _ :: rest => invokeCount t rest

/-- Number of synthesis invocations in a trace. -/
def synthCount : List Event → Nat
  | [] => 0
  | Event.synth :: rest => 1 + synthCount rest
  | _ :: rest => synthCount rest

/-- Shape of a retry-loop trace for worker `w` on task `t`, with `j` the
index of the next expected invocation: invocations are numbered
consecutively from `j`, never exceed `maxRetries + 1`, every two
consecutive invocations `n` and `n + 1` are separated by exactly one
backoff of `backoffDelay n` milliseconds, no delay precedes the first
invocation, and no delay follows the last one. -/
def retryShape (w t : String) (maxRetries : Nat) : Nat → List Event → Bool
  | _, [] => true
  | j, [Event.invoke w1 t1 j1] =>
      w1 == w && t1 == t && j1 == j && j ≤ maxRetries + 1
  | j, Event.invoke w1 t1 j1 :: Event.delay t2 ms :: rest =>
      w1 == w && t1 == t && j1 == j && j ≤ maxRetries &&
      t2 == t && ms == backoffDelay j && !rest.isEmpty &&
      retryShape w t maxRetries (j + 1) rest
  | _, _ => false

/-- Outputs recorded in a trace for tasks whose type in the task map is
`ty`, in trace order. -/
def recordedOfType (tm : List (String × OrchestrationTask)) (ty : String) :
    List Event → List AgentOutput
  | [] => []
  | Event.record t out :: rest =>
      (if (tm.lookup t).map OrchestrationTask.type = some ty then [out] else [])
        ++ recordedOfType tm ty rest
  | _ :: rest => recordedOfType tm ty rest

/-- The `(task, output)` pairs recorded in a trace, in order. -/
def recordsOf : List Event → List (String × AgentOutput)
  | [] => []
  | Event.record t out :: rest => (t, out) :: recordsOf rest
  | _ :: rest => recordsOf rest

/-- The last task of the plan carrying a given name (what the collapsed
task map keeps for that name). -/
def lastNamed (plan : List OrchestrationTask) (n : String) :
    Option OrchestrationTask :=
  plan.reverse.find? (fun t => t.name == n)

/-- The designated default worker: `workerAgents.analysis`. -/
def defaultWorker (custom : List (String × String)) : String :=
  (mkRegistry custom "analysis").getD "analysis"

/-- Worker resolution as the amended claim C8 describes it: the key looked
up is the truthy `customAgent` of a `custom`-typed task, else `task.type`;
the property value found for that key — a registered worker, or for
`Object.prototype` member names like `toString` the truthy inherited
non-worker value — is used as the agent; only when the lookup finds nothing
at all (own or inherited) does resolution fall back, silently, to the
default analysis worker; no warning is ever reported. -/
def claimedResolution (custom : List (String × String))
    (task : OrchestrationTask) : String :=
  if task.type = "custom" ∧ truthyOpt task.customAgent then
    match mkRegistry custom (task.customAgent.getD "") with
    | some w => w
    | none => defaultWorker custom
  else
    match mkRegistry custom task.type with
    | some w => w
    | none => defaultWorker custom

/-- Invariant tying a dedicated state field to the result store: whenever
the field is set, some task of the map with the matching type has a result
recorded under its name. -/
def canonWitnessed (tm : List (String × OrchestrationTask)) (ty : String)
    (fld : Option AgentOutput) (st : WorkflowState) : Prop :=
  fld.isSome = true → ∃ nm task, tm.lookup nm = some task ∧
    task.type = ty ∧ (st.taskResults.lookup nm).isSome = true

/-! Basic lemmas on association-list lookup and `objSet`. -/

theorem lookup_cons {β : Type} (a k : String) (v : β) (l : List (String × β)) :
    ((k, v) :: l).lookup a = if a = k then some v else l.lookup a := by
  by_cases h : a = k
  · simp [List.lookup_cons, h]
  · simp [List.lookup_cons, h, beq_false_of_ne h]

theorem lookup_append {β : Type} (a : String) (l1 l2 : List (String × β)) :
    (l1 ++ l2).lookup a = (l1.lookup a).or (l2.lookup a) := by
  induction l1 with
  | nil => simp [List.lookup]
  | cons p rest ih =>
    cases p with
    | mk k v =>
      by_cases h : a = k
      · simp [lookup_cons, h]
      · simp [lookup_cons, h, ih]

theorem lookup_none_iff {β : Type} (a : String) (m : List (String × β)) :
    m.lookup a = none ↔ ∀ p ∈ m, p.1 ≠ a := by
  induction m with
  | nil => simp [List.lookup]
  | cons p rest ih =>
    cases p with
    | mk k v =>
      by_cases h : a = k
      · simp [lookup_cons, h]
      · simp [lookup_cons, h, ih, fun hne => (Ne.symm h : k ≠ a)]
        intro _
        exact fun hk => absurd hk.symm h

theorem lookup_overwrite_self {β : Type} (m : List (String × β)) (k : String)
    (v : β) (h : (m.lookup k).isSome) :
    (m.map (fun p => if p.1 = k then (k, v) else p)).lookup k = some v := by
  induction m with
  | nil => simp [List.lookup] at h
  | cons p rest ih =>
    by_cases hpk : p.1 = k
    · simp only [List.map, hpk, if_pos]
      simp [lookup_cons]
    · have h1 : (rest.lookup k).isSome := by
        cases p with
        | mk a b =>
          simp only at hpk
          rw [lookup_cons] at h
          rwa [if_neg (fun hh : k = a => hpk hh.symm)] at h
      simp only [List.map, hpk, if_neg, not_false_iff]
      cases p with
      | mk a b =>
        simp only at hpk
        rw [lookup_cons, if_neg (fun hh : k = a => hpk hh.symm)]
        exact ih h1

theorem lookup_overwrite_ne {β : Type} (m : List (String × β)) (k nm : String)
    (v : β) (h : nm ≠ k) :
    (m.map (fun p => if p.1 = k then (k, v) else p)).lookup nm = m.lookup nm := by
  induction m with
  | nil => simp
  | cons p rest ih =>
    cases p with
    | mk a b =>
      by_cases hpk : a = k
      · simp only [List.map, hpk, if_pos]
        rw [lookup_cons, lookup_cons]
        simp [h, hpk, ih]
      · simp only [List.map, if_neg hpk]
        rw [lookup_cons, lookup_cons]
        by_cases hna : nm = a
        · simp [hna]
        · simp [hna, ih]

theorem objSet_lookup_self {β : Type} (m : List (String × β)) (k : String) (v : β) :
    (objSet m k v).lookup k = some v := by
  unfold objSet
  split
  · exact lookup_overwrite_self m k v (by assumption)
  · rename_i hn
    rw [lookup_append]
    rw [Option.not_isSome_iff_eq_none] at hn
    simp [hn, lookup_cons]

theorem objSet_lookup_ne {β : Type} (m : List (String × β)) (k nm : String)
    (v : β) (h : nm ≠ k) :
    (objSet m k v).lookup nm = m.lookup nm := by
  unfold objSet
  split
  · exact lookup_overwrite_ne m k nm v h
  · rw [lookup_append, lookup_cons, if_neg h]
    cases m.lookup nm <;> simp [List.lookup]

theorem objSet_lookup_isSome_mono {β : Type} (m : List (String × β))
    (k nm : String) (v : β) (h : (m.lookup nm).isSome) :
    ((objSet m k v).lookup nm).isSome := by
  by_cases hk : nm = k
  · rw [hk, objSet_lookup_self]; rfl
  · rw [objSet_lookup_ne m k nm v hk]; exact h

theorem objSet_keys {β : Type} (m : List (String × β)) (k : String) (v : β) :
    (objSet m k v).map Prod.fst =
      if (m.lookup k).isSome then m.map Prod.fst else m.map Prod.fst ++ [k] := by
  unfold objSet
  split
  · rw [List.map_map]
    exact List.map_congr_left (fun p _ => by by_cases hp : p.1 = k <;> simp [hp])
  · simp

theorem buildTaskMap_keys_nodup (plan : List OrchestrationTask) :
    ((buildTaskMap plan).map Prod.fst).Nodup := by
  have main : ∀ (ts : List OrchestrationTask) (m : List (String × OrchestrationTask)),
      (m.map Prod.fst).Nodup →
      ((ts.foldl (fun m t => objSet m t.name t) m).map Prod.fst).Nodup := by
    intro ts
    induction ts with
    | nil => intro m hm; simpa using hm
    | cons t rest ih =>
      intro m hm
      rw [List.foldl_cons]
      apply ih
      rw [objSet_keys]
      split
      · exact hm
      · rename_i hn
        rw [Option.not_isSome_iff_eq_none, lookup_none_iff] at hn
        rw [List.nodup_append]
        refine ⟨hm, List.nodup_singleton _, ?_⟩
        intro x hx hx1
        simp at hx1
        subst hx1
        rw [List.mem_map] at hx
        obtain ⟨p, hp, hp1⟩ := hx
        exact hn p hp hp1
  exact main plan [] (by simp)

theorem lookup_of_mem_nodup {β : Type} (m : List (String × β)) (k : String)
    (v : β) (hnd : (m.map Prod.fst).Nodup) (hm : (k, v) ∈ m) :
    m.lookup k = some v := by
  induction m with
  | nil => simp at hm
  | cons p rest ih =>
    rw [List.mem_cons] at hm
    cases p with
    | mk a b =>
      simp only [List.map, List.nodup_cons] at hnd
      rcases hm with hm | hm
      · rw [lookup_cons]
        simp [Prod.mk.injEq] at hm
        simp [hm.1, hm.2]
      · rw [lookup_cons]
        have hka : k ≠ a := by
          intro he
          subst he
          exact hnd.1 (List.mem_map.mpr ⟨(k, v), hm, rfl⟩)
        simp [hka, ih hnd.2 hm]

theorem buildTaskMap_mem_lookup (plan : List OrchestrationTask) :
    ∀ e ∈ buildTaskMap plan, (buildTaskMap plan).lookup e.1 = some e.2 := by
  intro e he
  exact lookup_of_mem_nodup _ e.1 e.2 (buildTaskMap_keys_nodup plan) he

theorem buildTaskMap_lookup (plan : List OrchestrationTask) (n : String) :
    (buildTaskMap plan).lookup n = lastNamed plan n := by
  have main : ∀ (ts : List OrchestrationTask) (m : List (String × OrchestrationTask)),
      ((ts.foldl (fun m t => objSet m t.name t) m).lookup n) =
        (lastNamed ts n).or (m.lookup n) := by
    intro ts
    induction ts with
    | nil => intro m; simp [lastNamed, List.find?]
    | cons t rest ih =>
      intro m
      rw [List.foldl_cons, ih]
      unfold lastNamed
      rw [List.reverse_cons, List.find?_append]
      by_cases h : n = t.name
      · have ht : (List.find? (fun tk => tk.name == n) [t]) = some t := by
          simp [List.find?, beq_iff_eq, h.symm]
        rw [ht, Option.or_assoc]
        have : (objSet m t.name t).lookup n = some t := by
          rw [h]; exact objSet_lookup_self m t.name t
        rw [this]
        cases (List.find? (fun tk => tk.name == n) rest.reverse) <;> simp
      · have ht : (List.find? (fun tk => tk.name == n) [t]) = none := by
          simp [List.find?, beq_false_of_ne (fun hh : t.name = n => absurd hh.symm h)]
        rw [ht, objSet_lookup_ne m t.name n t h]
        cases (List.find? (fun tk => tk.name == n) rest.reverse) <;> simp
  have := main plan []
  simpa [List.lookup] using this

/-! Append lemmas for the trace checkers. -/

theorem afterRecords_append (xs ys : List Event) (comp : String → Bool) :
    afterRecords (xs ++ ys) comp = afterRecords ys (afterRecords xs comp) := by
  induction xs generalizing comp with
  | nil => simp [afterRecords]
  | cons e rest ih => cases e <;> simp [afterRecords, ih]

theorem depsRespected_append (tm : List (String × OrchestrationTask))
    (xs ys : List Event) (comp : String → Bool) :
    depsRespected tm (xs ++ ys) comp =
      (depsRespected tm xs comp && depsRespected tm ys (afterRecords xs comp)) := by
  induction xs generalizing comp with
  | nil => simp [depsRespected, afterRecords]
  | cons e rest ih =>
    cases e <;> simp [depsRespected, afterRecords, ih, Bool.and_assoc]

theorem seenAfter_append (xs ys : List Event) (seen : List String) :
    seenAfter (xs ++ ys) seen = seenAfter ys (seenAfter xs seen) := by
  induction xs generalizing seen with
  | nil => simp [seenAfter]
  | cons e rest ih => cases e <;> simp [seenAfter, ih]

theorem recordsOnce_append (xs ys : List Event) (seen : List String) :
    recordsOnce (xs ++ ys) seen =
      (recordsOnce xs seen && recordsOnce ys (seenAfter xs seen)) := by
  induction xs generalizing seen with
  | nil => simp [recordsOnce, seenAfter]
  | cons e rest ih =>
    cases e <;> simp [recordsOnce, seenAfter, ih, Bool.and_assoc]

theorem invokeCount_append (t : String) (xs ys : List Event) :
    invokeCount t (xs ++ ys) = invokeCount t xs + invokeCount t ys := by
  induction xs with
  | nil => simp [invokeCount]
  | cons e rest ih => cases e <;> simp [invokeCount, ih] <;> omega

theorem synthCount_append (xs ys : List Event) :
    synthCount (xs ++ ys) = synthCount xs + synthCount ys := by
  induction xs with
  | nil => simp [synthCount]
  | cons e rest ih => cases e <;> simp [synthCount, ih] <;> omega

theorem synthCount_eq_zero (xs : List Event) (h : Event.synth ∉ xs) :
    synthCount xs = 0 := by
  induction xs with
  | nil => rfl
  | cons e rest ih =>
    rw [List.mem_cons] at h
    push_neg at h
    cases e <;> simp [synthCount, ih h.2]
    exact absurd rfl h.1

theorem recordedOfType_append (tm : List (String × OrchestrationTask))
    (ty : String) (xs ys : List Event) :
    recordedOfType tm ty (xs ++ ys) =
      recordedOfType tm ty xs ++ recordedOfType tm ty ys := by
  induction xs with
  | nil => simp [recordedOfType]
  | cons e rest ih => cases e <;> simp [recordedOfType, ih]

theorem recordsOf_append (xs ys : List Event) :
    recordsOf (xs ++ ys) = recordsOf xs ++ recordsOf ys := by
  induction xs with
  | nil => simp [recordsOf]
  | cons e rest ih => cases e <;> simp [recordsOf, ih]

/-- Events that are only invocations of `t` or backoffs for `t` (the shape
of a retry-loop trace). -/
def onlyTaskEvents (w t : String) (xs : List Event) : Prop :=
  ∀ e ∈ xs, (∃ k, e = Event.invoke w t k) ∨ (∃ ms, e = Event.delay t ms)

theorem onlyTaskEvents_afterRecords (w t : String) (xs : List Event)
    (h : onlyTaskEvents w t xs) (comp : String → Bool) :
    afterRecords xs comp = comp := by
  induction xs with
  | nil => rfl
  | cons e rest ih =>
    have he := h e (List.mem_cons_self e rest)
    have hrest : onlyTaskEvents w t rest := fun e he => h e (List.mem_cons_of_mem _ he)
    rcases he with ⟨k, rfl⟩ | ⟨ms, rfl⟩ <;> simp [afterRecords, ih hrest]

theorem onlyTaskEvents_seenAfter (w t : String) (xs : List Event)
    (h : onlyTaskEvents w t xs) (seen : List String) :
    seenAfter xs seen = seen := by
  induction xs with
  | nil => rfl
  | cons e rest ih =>
    have he := h e (List.mem_cons_self e rest)
    have hrest : onlyTaskEvents w t rest := fun e he => h e (List.mem_cons_of_mem _ he)
    rcases he with ⟨k, rfl⟩ | ⟨ms, rfl⟩ <;> simp [seenAfter, ih hrest]

theorem onlyTaskEvents_recordsOf (w t : String) (xs : List Event)
    (h : onlyTaskEvents w t xs) : recordsOf xs = [] := by
  induction xs with
  | nil => rfl
  | cons e rest ih =>
    have he := h e (List.mem_cons_self e rest)
    have hrest : onlyTaskEvents w t rest := fun e he => h e (List.mem_cons_of_mem _ he)
    rcases he with ⟨k, rfl⟩ | ⟨ms, rfl⟩ <;> simp [recordsOf, ih hrest]

theorem onlyTaskEvents_recordedOfType (w t : String)
    (tm : List (String × OrchestrationTask)) (ty : String) (xs : List Event)
    (h : onlyTaskEvents w t xs) : recordedOfType tm ty xs = [] := by
  induction xs with
  | nil => rfl
  | cons e rest ih =>
    have he := h e (List.mem_cons_self e rest)
    have hrest : onlyTaskEvents w t rest := fun e he => h e (List.mem_cons_of_mem _ he)
    rcases he with ⟨k, rfl⟩ | ⟨ms, rfl⟩ <;> simp [recordedOfType, ih hrest]

theorem onlyTaskEvents_depsRespected (w t : String)
    (tm : List (String × OrchestrationTask)) (xs : List Event)
    (h : onlyTaskEvents w t xs) (comp : String → Bool)
    (hd : ∀ task, tm.lookup t = some task → task.dependencies.all comp = true) :
    depsRespected tm xs comp = true := by
  induction xs with
  | nil => rfl
  | cons e rest ih =>
    have he := h e (List.mem_cons_self e rest)
    have hrest : onlyTaskEvents w t rest := fun e he => h e (List.mem_cons_of_mem _ he)
    rcases he with ⟨k, rfl⟩ | ⟨ms, rfl⟩
    · simp only [depsRespected]
      rw [ih hrest, Bool.and_true]
      cases htm : tm.lookup t with
      | none => rfl
      | some task => exact hd task htm
    · simp [depsRespected, ih hrest]

theorem onlyTaskEvents_recordsOnce (w t : String) (xs : List Event)
    (h : onlyTaskEvents w t xs) (seen : List String)
    (hs : seen.contains t = false) : recordsOnce xs seen = true := by
  induction xs with
  | nil => rfl
  | cons e rest ih =>
    have he := h e (List.mem_cons_self e rest)
    have hrest : onlyTaskEvents w t rest := fun e he => h e (List.mem_cons_of_mem _ he)
    rcases he with ⟨k, rfl⟩ | ⟨ms, rfl⟩
    · have ht : t ∉ seen := by
        intro hmem
        have hc : seen.contains t = true := List.elem_iff.mpr hmem
        rw [hc] at hs
        exact Bool.noConfusion hs
      simp [recordsOnce, hs, ih hrest, ht]
    · simp [recordsOnce, ih hrest]

theorem onlyTaskEvents_invokeCount_ne (w t u : String) (xs : List Event)
    (h : onlyTaskEvents w t xs) (hu : u ≠ t) : invokeCount u xs = 0 := by
  induction xs with
  | nil => rfl
  | cons e rest ih =>
    have he := h e (List.mem_cons_self e rest)
    have hrest : onlyTaskEvents w t rest := fun e he => h e (List.mem_cons_of_mem _ he)
    rcases he with ⟨k, rfl⟩ | ⟨ms, rfl⟩
    · simp [invokeCount, ih hrest, Ne.symm hu]
    · simp [invokeCount, ih hrest]

theorem onlyTaskEvents_no_synth (w t : String) (xs : List Event)
    (h : onlyTaskEvents w t xs) : Event.synth ∉ xs := by
  intro hmem
  rcases h _ hmem with ⟨k, hk⟩ | ⟨ms, hms⟩
  · simp at hk
  · simp at hms

theorem onlyTaskEvents_no_warn (w t ty : String) (xs : List Event)
    (h : onlyTaskEvents w t xs) : Event.warn ty ∉ xs := by
  intro hmem
  rcases h _ hmem with ⟨k, hk⟩ | ⟨ms, hms⟩
  · simp at hk
  · simp at hms

theorem onlyTaskEvents_no_record (w t nm : String) (out : AgentOutput)
    (xs : List Event) (h : onlyTaskEvents w t xs) :
    Event.record nm out ∉ xs := by
  intro hmem
  rcases h _ hmem with ⟨k, hk⟩ | ⟨ms, hms⟩
  · simp at hk
  · simp at hms

theorem onlyTaskEvents_no_invoke_ne (w t u : String) (xs : List Event)
    (h : onlyTaskEvents w t xs) (hu : u ≠ t) :
    ∀ w1 k, Event.invoke w1 u k ∉ xs := by
  intro w1 k hmem
  rcases h _ hmem with ⟨k2, hk⟩ | ⟨ms, hms⟩
  · injection hk with h1 h2 h3
    exact hu h2
  · simp at hms

/-! Lemmas on the retry loop (lines 222–252). -/

theorem retryLoop_stop (b : Behavior) (w t : String) (mr r : Nat)
    (h : ¬ r ≤ mr) : retryLoop b w t mr r = ([], none, r) := by
  unfold retryLoop
  have hz : mr + 1 - r = 0 := by omega
  rw [hz]
  rfl

theorem retryLoop_succ_eq (b : Behavior) (w t : String) (mr r : Nat)
    (h : r ≤ mr) (out : AgentOutput) (hb : b w t (r + 1) = some out) :
    retryLoop b w t mr r = ([Event.invoke w t (r + 1)], some out, r) := by
  unfold retryLoop
  have hc : mr + 1 - r = (mr - r) + 1 := by omega
  rw [hc]
  simp [retryGo, hb]

theorem retryLoop_fail_eq (b : Behavior) (w t : String) (mr r : Nat)
    (h : r ≤ mr) (hb : b w t (r + 1) = none) :
    retryLoop b w t mr r =
      (Event.invoke w t (r + 1) ::
        ((if r + 1 ≤ mr then [Event.delay t (backoffDelay (r + 1))] else []) ++
          (retryLoop b w t mr (r + 1)).1),
       (retryLoop b w t mr (r + 1)).2.1, (retryLoop b w t mr (r + 1)).2.2) := by
  unfold retryLoop
  have hc : mr + 1 - r = (mr - r) + 1 := by omega
  have hc2 : mr + 1 - (r + 1) = mr - r := by omega
  rw [hc, hc2]
  simp [retryGo, hb]

theorem retryLoop_events_only (b : Behavior) (w t : String) (mr : Nat) :
    ∀ r, onlyTaskEvents w t (retryLoop b w t mr r).1 := by
  suffices h : ∀ n r, mr + 1 - r ≤ n → onlyTaskEvents w t (retryLoop b w t mr r).1 by
    exact fun r => h (mr + 1 - r) r le_rfl
  intro n
  induction n with
  | zero =>
    intro r hn
    have hr : ¬ r ≤ mr := by omega
    rw [retryLoop_stop b w t mr r hr]
    intro e he
    simp at he
  | succ n ih =>
    intro r hn
    by_cases hr : r ≤ mr
    · cases hb : b w t (r + 1) with
      | some out =>
        rw [retryLoop_succ_eq b w t mr r hr out hb]
        intro e he
        simp at he
        exact Or.inl ⟨r + 1, he⟩
      | none =>
        rw [retryLoop_fail_eq b w t mr r hr hb]
        intro e he
        simp only [List.mem_cons, List.mem_append] at he
        rcases he with he | he | he
        · exact Or.inl ⟨r + 1, he⟩
        · by_cases hle : r + 1 ≤ mr
          · rw [if_pos hle] at he
            simp at he
            exact Or.inr ⟨backoffDelay (r + 1), he⟩
          · rw [if_neg hle] at he
            simp at he
        · exact ih (r + 1) (by omega) e he
    · rw [retryLoop_stop b w t mr r hr]
      intro e he
      simp at he

theorem retryLoop_events_ne_nil (b : Behavior) (w t : String) (mr r : Nat)
    (h : r ≤ mr) : (retryLoop b w t mr r).1 ≠ [] := by
  cases hb : b w t (r + 1) with
  | some out => rw [retryLoop_succ_eq b w t mr r h out hb]; simp
  | none => rw [retryLoop_fail_eq b w t mr r h hb]; simp

theorem retryLoop_allFail (b : Behavior) (w t : String) (mr : Nat)
    (hf : ∀ k, b w t k = none) :
    ∀ r, r ≤ mr + 1 → (retryLoop b w t mr r).2 = (none, mr + 1) := by
  suffices h : ∀ n r, mr + 1 - r ≤ n → r ≤ mr + 1 →
      (retryLoop b w t mr r).2 = (none, mr + 1) by
    exact fun r hr => h (mr + 1 - r) r le_rfl hr
  intro n
  induction n with
  | zero =>
    intro r hn h2
    have hr : ¬ r ≤ mr := by omega
    rw [retryLoop_stop b w t mr r hr]
    have he : r = mr + 1 := by omega
    rw [he]
  | succ n ih =>
    intro r hn h2
    by_cases hr : r ≤ mr
    · have hb := hf (r + 1)
      rw [retryLoop_fail_eq b w t mr r hr hb]
      have h3 := ih (r + 1) (by omega) (by omega)
      rw [Prod.ext_iff] at h3
      simpa [Prod.ext_iff] using h3
    · rw [retryLoop_stop b w t mr r hr]
      have he : r = mr + 1 := by omega
      rw [he]

theorem retryLoop_invokeCount_self (b : Behavior) (w t : String) (mr : Nat) :
    ∀ r, r ≤ mr + 1 → invokeCount t (retryLoop b w t mr r).1 + r ≤ mr + 1 := by
  suffices h : ∀ n r, mr + 1 - r ≤ n → r ≤ mr + 1 →
      invokeCount t (retryLoop b w t mr r).1 + r ≤ mr + 1 by
    exact fun r hr => h (mr + 1 - r) r le_rfl hr
  intro n
  induction n with
  | zero =>
    intro r hn h2
    have hr : ¬ r ≤ mr := by omega
    rw [retryLoop_stop b w t mr r hr]
    simp [invokeCount]
    omega
  | succ n ih =>
    intro r hn h2
    by_cases hr : r ≤ mr
    · cases hb : b w t (r + 1) with
      | some out =>
        rw [retryLoop_succ_eq b w t mr r hr out hb]
        simp [invokeCount]
        omega
      | none =>
        rw [retryLoop_fail_eq b w t mr r hr hb]
        have h3 := ih (r + 1) (by omega) (by omega)
        have hd : invokeCount t
            (if r + 1 ≤ mr then [Event.delay t (backoffDelay (r + 1))] else []) = 0 := by
          by_cases hle : r + 1 ≤ mr
          · rw [if_pos hle]; simp [invokeCount]
          · rw [if_neg hle]; simp [invokeCount]
        simp [invokeCount, invokeCount_append, hd]
        omega
    · rw [retryLoop_stop b w t mr r hr]
      simp [invokeCount]
      omega

theorem retryShape_retryLoop (b : Behavior) (w t : String) (mr : Nat) :
    ∀ r, retryShape w t mr (r + 1) (retryLoop b w t mr r).1 = true := by
  suffices h : ∀ n r, mr + 1 - r ≤ n →
      retryShape w t mr (r + 1) (retryLoop b w t mr r).1 = true by
    exact fun r => h (mr + 1 - r) r le_rfl
  intro n
  induction n with
  | zero =>
    intro r hn
    have hr : ¬ r ≤ mr := by omega
    rw [retryLoop_stop b w t mr r hr]
    rfl
  | succ n ih =>
    intro r hn
    by_cases hr : r ≤ mr
    · cases hb : b w t (r + 1) with
      | some out =>
        rw [retryLoop_succ_eq b w t mr r hr out hb]
        simp [retryShape, decide_eq_true_eq]
        omega
      | none =>
        rw [retryLoop_fail_eq b w t mr r hr hb]
        by_cases hle : r + 1 ≤ mr
        · rw [if_pos hle]
          have hne := retryLoop_events_ne_nil b w t mr (r + 1) hle
          have ih2 := ih (r + 1) (by omega)
          simp only [List.cons_append, List.nil_append, retryShape]
          cases hev : (retryLoop b w t mr (r + 1)).1 with
          | nil => exact absurd hev hne
          | cons e rest =>
            rw [hev] at ih2
            simp [retryShape, decide_eq_true_eq, ih2, hev, hle, hr]
        · rw [if_neg hle]
          have hstop := retryLoop_stop b w t mr (r + 1) hle
          rw [hstop]
          simp [retryShape, decide_eq_true_eq]
          omega
    · rw [retryLoop_stop b w t mr r hr]
      rfl

/-! Core lemmas on the scheduler pass and loop. -/

theorem runPass_normal_spec (b : Behavior) (reg : String → Option String)
    (mr : Nat) (entries : List (String × OrchestrationTask)) :
    ∀ (st : WorkflowState) (c : List String) (mp : Bool)
      (st1 : WorkflowState) (c1 : List String) (made : Bool) (evs : List Event),
      runPass b reg mr entries st c mp = PassOutcome.normal st1 c1 made evs →
      ∃ added, c1 = c ++ added ∧ made = (mp || !added.isEmpty) ∧
        (added = [] → st1 = st ∧ evs = []) := by
  induction entries with
  | nil =>
    intro st c mp st1 c1 made evs h
    simp [runPass] at h
    exact ⟨[], by simp [← h.2.1], by simp [← h.2.2.1], fun _ => ⟨h.1.symm, h.2.2.2⟩⟩
  | cons p rest ih =>
    obtain ⟨taskName, task⟩ := p
    intro st c mp st1 c1 made evs h
    rw [runPass] at h
    by_cases hskip : c.contains taskName = true
    · rw [if_pos hskip] at h
      exact ih st c mp st1 c1 made evs h
    · rw [if_neg hskip] at h
      by_cases hdeps : task.dependencies.all (fun d => c.contains d) = true
      · rw [if_pos hdeps] at h
        rcases hra : resolveAgent reg task with ⟨oa, wf⟩
        rw [hra] at h
        cases oa with
        | none => simp at h
        | some a =>
          simp only at h
          cases hres : (retryLoop b a taskName mr 0).2.1 with
          | none => rw [hres] at h; simp at h
          | some out =>
            rw [hres] at h
            simp only at h
            cases hrec : runPass b reg mr rest
                (storeResult st taskName task.type out) (c ++ [taskName]) true with
            | thrown m s cc evs2 => rw [hrec] at h; simp at h
            | normal s cc mp2 evs2 =>
              rw [hrec] at h
              simp only [PassOutcome.normal.injEq] at h
              obtain ⟨hs, hc, hm, he⟩ := h
              obtain ⟨added, ha1, ha2, _⟩ := ih _ _ _ _ _ _ _ hrec
              refine ⟨taskName :: added, ?_, ?_, ?_⟩
              · rw [← hc, ha1]; simp
              · rw [← hm, ha2]; simp
              · intro hcontra; simp at hcontra
      · rw [if_neg hdeps] at h
        exact ih st c mp st1 c1 made evs h

theorem runLoop_no_fuelOut (b : Behavior) (reg : String → Option String)
    (mr : Nat) (entries : List (String × OrchestrationTask)) :
    ∀ (fuel : Nat) (st : WorkflowState) (c : List String),
      entries.length - c.length ≤ fuel →
      ∀ s cc e, runLoop b reg mr entries fuel st c ≠ LoopOutcome.fuelOut s cc e := by
  intro fuel
  induction fuel with
  | zero =>
    intro st c hle s cc e
    rw [runLoop]
    have hc : ¬ c.length < entries.length := by omega
    rw [if_neg hc]
    simp
  | succ f ih =>
    intro st c hle s cc e
    rw [runLoop]
    by_cases hcond : c.length < entries.length
    · rw [if_pos hcond]
      cases hp : runPass b reg mr entries st c false with
      | thrown m s1 c1 evs => simp
      | normal st1 c1 made evs =>
        dsimp only
        by_cases hdl : made = false ∧ c1.length < entries.length
        · rw [if_pos hdl]
          simp
        · rw [if_neg hdl]
          obtain ⟨added, ha1, ha2, _⟩ :=
            runPass_normal_spec b reg mr entries st c false st1 c1 made evs hp
          have hlen : entries.length - c1.length ≤ f := by
            rcases Decidable.em (c1.length < entries.length) with h1 | h1
            · have hmt : made = true := by
                cases made
                · exact absurd ⟨rfl, h1⟩ hdl
                · rfl
              rw [hmt] at ha2
              have hne : added ≠ [] := by
                intro hnil
                rw [hnil] at ha2
                simp at ha2
              have hlp : 0 < added.length := List.length_pos.mpr hne
              have hc1 : c1.length = c.length + added.length := by
                rw [ha1]; simp
              omega
            · omega
          cases hrl : runLoop b reg mr entries f st1 c1 with
          | thrown m2 s2 e2 => simp
          | done s2 c2 e2 => simp
          | fuelOut s2 c2 e2 => exact absurd hrl (ih st1 c1 hlen s2 c2 e2)
    · rw [if_neg hcond]
      simp

theorem runPass_noProgress_id (b : Behavior) (reg : String → Option String)
    (mr : Nat) (entries : List (String × OrchestrationTask))
    (st st1 : WorkflowState) (c c1 : List String) (evs : List Event)
    (hp : runPass b reg mr entries st c false = PassOutcome.normal st1 c1 false evs) :
    st1 = st ∧ c1 = c ∧ evs = [] := by
  obtain ⟨added, ha1, ha2, ha3⟩ :=
    runPass_normal_spec b reg mr entries st c false st1 c1 false evs hp
  have hnil : added = [] := by
    cases added with
    | nil => rfl
    | cons x xs => simp at ha2
  obtain ⟨hs, he⟩ := ha3 hnil
  exact ⟨hs, by rw [ha1, hnil]; simp, he⟩

/-- C2: a full pass over the incomplete tasks that dispatches and completes
no task while incomplete tasks remain makes the run terminate by throwing
the deadlock error, whose message lists exactly the remaining incomplete
task names in task-map order, with no further event (in particular no
worker of a stuck task is ever invoked); moreover, on the cyclic plan
`A ↔ B` and on the dangling plan `A → ghost`, the whole run returns the
deadlock error naming the stuck tasks and an empty event trace — no worker
is ever invoked. -/
theorem claim_C2 (b : Behavior) (synthB : Option AgentOutput)
    (reg : String → Option String) (mr fuel : Nat) (st st1 : WorkflowState)
    (init : WorkflowState) (c c1 : List String) (evs : List Event)
    (entries : List (String × OrchestrationTask))
    (hc : c.length < entries.length)
    (hp : runPass b reg mr entries st c false = PassOutcome.normal st1 c1 false evs) :
    (runLoop b reg mr entries (fuel + 1) st c =
      LoopOutcome.thrown (deadlockMsg ((entries.map Prod.fst).filter
        (fun k => ¬ c.contains k))) st []) ∧
    (execute b synthB reg mr
        [⟨"A", "analysis", ["B"], none⟩, ⟨"B", "analysis", ["A"], none⟩] init =
      ({ init with currentStep := "executing_tasks",
                   error := some (deadlockMsg ["A", "B"]) }, [])) ∧
    (execute b synthB reg mr [⟨"A", "analysis", ["ghost"], none⟩] init =
      ({ init with currentStep := "executing_tasks",
                   error := some (deadlockMsg ["A"]) }, [])) := by
  obtain ⟨hs, hcc, he⟩ := runPass_noProgress_id b reg mr entries st st1 c c1 evs hp
  subst hs hcc he
  refine ⟨?_, ?_, ?_⟩
  · rw [runLoop, if_pos hc, hp]
    dsimp only
    rw [if_pos ⟨rfl, hc⟩]
  · rfl
  · rfl

/-- Witness for C2 at the concrete cyclic plan `A ↔ B` with the standard
registry, no retries and a fresh state. -/
theorem claim_C2_witness :
    (runLoop (fun _ _ _ => some 0) (mkRegistry []) 0
        (buildTaskMap [⟨"A", "analysis", ["B"], none⟩, ⟨"B", "analysis", ["A"], none⟩])
        3 freshState [] =
      LoopOutcome.thrown (deadlockMsg
        (((buildTaskMap [⟨"A", "analysis", ["B"], none⟩,
            ⟨"B", "analysis", ["A"], none⟩]).map Prod.fst).filter
          (fun k => ¬ ([] : List String).contains k))) freshState []) ∧
    (execute (fun _ _ _ => some 0) none (mkRegistry []) 0
        [⟨"A", "analysis", ["B"], none⟩, ⟨"B", "analysis", ["A"], none⟩] freshState =
      ({ freshState with currentStep := "executing_tasks",
                         error := some (deadlockMsg ["A", "B"]) }, [])) ∧
    (execute (fun _ _ _ => some 0) none (mkRegistry []) 0
        [⟨"A", "analysis", ["ghost"], none⟩] freshState =
      ({ freshState with currentStep := "executing_tasks",
                         error := some (deadlockMsg ["A"]) }, [])) :=
  claim_C2 (fun _ _ _ => some 0) none (mkRegistry []) 0 2 freshState freshState
    freshState [] [] []
    (buildTaskMap [⟨"A", "analysis", ["B"], none⟩, ⟨"B", "analysis", ["A"], none⟩])
    (by decide) (by rfl)

/-- Counterexample to C5 as stated: on a plan with two tasks both named
`A`, the engine performs no duplicate-name validation — the run finishes
with no error (no plan-invalid failure) and a worker IS invoked (for the
surviving second task, of type `diagnosis`). -/
theorem claim_C5_counterexample :
    (execute (fun _ _ _ => some 7) (some 9) (mkRegistry []) 0
        [⟨"A", "analysis", [], none⟩, ⟨"A", "diagnosis", [], none⟩]
        freshState).1.error = none ∧
    (execute (fun _ _ _ => some 7) (some 9) (mkRegistry []) 0
        [⟨"A", "analysis", [], none⟩, ⟨"A", "diagnosis", [], none⟩]
        freshState).2 =
      [Event.invoke "diagnosis" "A" 1, Event.record "A" 7, Event.synth] := by
  exact ⟨rfl, rfl⟩

/-- C5 (amended): the engine performs no duplicate-name validation.
`taskMap.set` silently collapses duplicate names: the task map's names are
duplicate-free and each name is mapped to the last task of the plan
carrying it (kept at the first occurrence's position); the run then
proceeds normally on the collapsed map — concretely, on the duplicate plan
`[A:analysis, A:diagnosis]` the run ends with no error, exactly one worker
invocation, and the surviving `diagnosis` task's result recorded. -/
theorem claim_C5 (plan : List OrchestrationTask) (n : String) :
    ((buildTaskMap plan).map Prod.fst).Nodup ∧
    (buildTaskMap plan).lookup n = lastNamed plan n ∧
    (execute (fun _ _ _ => some 7) (some 9) (mkRegistry []) 0
        [⟨"A", "analysis", [], none⟩, ⟨"A", "diagnosis", [], none⟩]
        freshState).1 =
      { taskResults := [("A", 7)], diagnosis := some 7, synthesis := some 9,
        currentStep := "complete" } := by
  exact ⟨buildTaskMap_keys_nodup plan, buildTaskMap_lookup plan n, rfl⟩

/-! Frame lemmas: fields of `WorkflowState` that the task loop never
touches. -/

theorem storeResult_taskResults (st : WorkflowState) (n ty : String)
    (out : AgentOutput) :
    (storeResult st n ty out).taskResults = objSet st.taskResults n out := by
  unfold storeResult
  split_ifs <;> rfl

theorem storeResult_error (st : WorkflowState) (n ty : String) (out : AgentOutput) :
    (storeResult st n ty out).error = st.error := by
  unfold storeResult
  split_ifs <;> rfl

theorem storeResult_synthesis (st : WorkflowState) (n ty : String)
    (out : AgentOutput) :
    (storeResult st n ty out).synthesis = st.synthesis := by
  unfold storeResult
  split_ifs <;> rfl

theorem storeResult_currentStep (st : WorkflowState) (n ty : String)
    (out : AgentOutput) :
    (storeResult st n ty out).currentStep = st.currentStep := by
  unfold storeResult
  split_ifs <;> rfl

theorem storeResult_analysis (st : WorkflowState) (n ty : String)
    (out : AgentOutput) :
    (storeResult st n ty out).analysis =
      if ty = "analysis" then some out else st.analysis := by
  unfold storeResult
  split_ifs <;> simp_all

theorem storeResult_context (st : WorkflowState) (n ty : String)
    (out : AgentOutput) :
    (storeResult st n ty out).context =
      if ty = "context" then some out else st.context := by
  unfold storeResult
  split_ifs <;> simp_all

theorem storeResult_diagnosis (st : WorkflowState) (n ty : String)
    (out : AgentOutput) :
    (storeResult st n ty out).diagnosis =
      if ty = "diagnosis" then some out else st.diagnosis := by
  unfold storeResult
  split_ifs <;> simp_all

theorem storeResult_recommendation (st : WorkflowState) (n ty : String)
    (out : AgentOutput) :
    (storeResult st n ty out).recommendation =
      if ty = "recommendation" then some out else st.recommendation := by
  unfold storeResult
  split_ifs <;> simp_all

theorem runPass_frame (b : Behavior) (reg : String → Option String)
    (mr : Nat) (entries : List (String × OrchestrationTask)) :
    ∀ (st : WorkflowState) (c : List String) (mp : Bool),
      (runPass b reg mr entries st c mp).stateOut.error = st.error ∧
      (runPass b reg mr entries st c mp).stateOut.synthesis = st.synthesis ∧
      (runPass b reg mr entries st c mp).stateOut.currentStep = st.currentStep := by
  induction entries with
  | nil => intro st c mp; simp [runPass, PassOutcome.stateOut]
  | cons p rest ih =>
    obtain ⟨taskName, task⟩ := p
    intro st c mp
    rw [runPass]
    by_cases hskip : c.contains taskName = true
    · rw [if_pos hskip]
      exact ih st c mp
    · rw [if_neg hskip]
      by_cases hdeps : task.dependencies.all (fun d => c.contains d) = true
      · rw [if_pos hdeps]
        rcases hra : resolveAgent reg task with ⟨oa, wf⟩
        cases oa with
        | none => simp [PassOutcome.stateOut]
        | some a =>
          simp only
          cases hres : (retryLoop b a taskName mr 0).2.1 with
          | none => simp [PassOutcome.stateOut]
          | some out =>
            simp only
            have hih := ih (storeResult st taskName task.type out) (c ++ [taskName]) true
            cases hrec : runPass b reg mr rest
                (storeResult st taskName task.type out) (c ++ [taskName]) true with
            | thrown m s cc evs2 =>
              rw [hrec] at hih
              simp only [PassOutcome.stateOut] at hih ⊢
              rw [storeResult_error, storeResult_synthesis, storeResult_currentStep] at hih
              exact hih
            | normal s cc mp2 evs2 =>
              rw [hrec] at hih
              simp only [PassOutcome.stateOut] at hih ⊢
              rw [storeResult_error, storeResult_synthesis, storeResult_currentStep] at hih
              exact hih
      · rw [if_neg hdeps]
        exact ih st c mp

theorem runLoop_frame (b : Behavior) (reg : String → Option String)
    (mr : Nat) (entries : List (String × OrchestrationTask)) :
    ∀ (fuel : Nat) (st : WorkflowState) (c : List String),
      (runLoop b reg mr entries fuel st c).stateOut.error = st.error ∧
      (runLoop b reg mr entries fuel st c).stateOut.synthesis = st.synthesis ∧
      (runLoop b reg mr entries fuel st c).stateOut.currentStep = st.currentStep := by
  intro fuel
  induction fuel with
  | zero =>
    intro st c
    rw [runLoop]
    by_cases hc : c.length < entries.length
    · rw [if_pos hc]; simp [LoopOutcome.stateOut]
    · rw [if_neg hc]; simp [LoopOutcome.stateOut]
  | succ f ih =>
    intro st c
    rw [runLoop]
    by_cases hc : c.length < entries.length
    · rw [if_pos hc]
      have hpf := runPass_frame b reg mr entries st c false
      cases hp : runPass b reg mr entries st c false with
      | thrown m s1 c1 evs =>
        rw [hp] at hpf
        simpa [LoopOutcome.stateOut, PassOutcome.stateOut] using hpf
      | normal st1 c1 made evs =>
        rw [hp] at hpf
        simp only [PassOutcome.stateOut] at hpf
        dsimp only
        by_cases hdl : made = false ∧ c1.length < entries.length
        · rw [if_pos hdl]
          simpa [LoopOutcome.stateOut] using hpf
        · rw [if_neg hdl]
          have hil := ih st1 c1
          cases hrl : runLoop b reg mr entries f st1 c1 with
          | thrown m2 s2 e2 =>
            rw [hrl] at hil
            simp only [LoopOutcome.stateOut] at hil ⊢
            exact ⟨hil.1.trans hpf.1, (hil.2.1).trans hpf.2.1, (hil.2.2).trans hpf.2.2⟩
          | done s2 c2 e2 =>
            rw [hrl] at hil
            simp only [LoopOutcome.stateOut] at hil ⊢
            exact ⟨hil.1.trans hpf.1, (hil.2.1).trans hpf.2.1, (hil.2.2).trans hpf.2.2⟩
          | fuelOut s2 c2 e2 =>
            rw [hrl] at hil
            simp only [LoopOutcome.stateOut] at hil ⊢
            exact ⟨hil.1.trans hpf.1, (hil.2.1).trans hpf.2.1, (hil.2.2).trans hpf.2.2⟩
    · rw [if_neg hc]
      simp [LoopOutcome.stateOut]

/-- C6: when the task loop finishes and the synthesis worker throws
(`synthBehavior = none`, lines 366–369), the error is swallowed: the
returned state's error field keeps its initial value (unset for a fresh
initial state), the per-task results are exactly the task phase's — and
identical to those of a run whose synthesis succeeds, i.e. unchanged by the
synthesis attempt — the synthesis field stays untouched, and the run still
completes normally (`currentStep = "complete"`). -/
theorem claim_C6 (b : Behavior) (reg : String → Option String) (mr : Nat)
    (plan : List OrchestrationTask) (init : WorkflowState)
    (st1 : WorkflowState) (c1 : List String) (evs : List Event) (out : AgentOutput)
    (h : runLoop b reg mr (buildTaskMap plan) ((buildTaskMap plan).length + 1)
        { init with currentStep := "executing_tasks" } [] =
      LoopOutcome.done st1 c1 evs) :
    (execute b none reg mr plan init).1.error = init.error ∧
    (execute b none reg mr plan init).1.taskResults = st1.taskResults ∧
    (execute b none reg mr plan init).1.taskResults =
      (execute b (some out) reg mr plan init).1.taskResults ∧
    (execute b none reg mr plan init).1.synthesis = init.synthesis ∧
    (execute b none reg mr plan init).1.currentStep = "complete" := by
  have hfr := runLoop_frame b reg mr (buildTaskMap plan)
      ((buildTaskMap plan).length + 1) { init with currentStep := "executing_tasks" } []
  rw [h] at hfr
  simp only [LoopOutcome.stateOut] at hfr
  refine ⟨?_, ?_, ?_, ?_, ?_⟩
  · simp only [execute]
    rw [h]
    dsimp only
    split_ifs <;> simp [hfr.1]
  · simp only [execute]
    rw [h]
    dsimp only
    split_ifs <;> simp
  · simp only [execute]
    rw [h]
    dsimp only
    split_ifs <;> simp
  · simp only [execute]
    rw [h]
    dsimp only
    split_ifs <;> simp [hfr.2.1]
  · simp only [execute]
    rw [h]
    dsimp only
    split_ifs <;> simp

/-- Witness for C6 at the empty plan with a fresh initial state. -/
theorem claim_C6_witness :
    (execute (fun _ _ _ => some 7) none (mkRegistry []) 0 [] freshState).1.error =
        freshState.error ∧
    (execute (fun _ _ _ => some 7) none (mkRegistry []) 0 [] freshState).1.taskResults =
        ({ freshState with currentStep := "executing_tasks"} : WorkflowState).taskResults ∧
    (execute (fun _ _ _ => some 7) none (mkRegistry []) 0 [] freshState).1.taskResults =
      (execute (fun _ _ _ => some 7) (some 5) (mkRegistry []) 0 [] freshState).1.taskResults ∧
    (execute (fun _ _ _ => some 7) none (mkRegistry []) 0 [] freshState).1.synthesis =
        freshState.synthesis ∧
    (execute (fun _ _ _ => some 7) none (mkRegistry []) 0 [] freshState).1.currentStep =
        "complete" :=
  claim_C6 (fun _ _ _ => some 7) (mkRegistry []) 0 [] freshState
    { freshState with currentStep := "executing_tasks" } [] [] 5 (by rfl)

theorem contains_append_singleton (c : List String) (t x : String) :
    (c ++ [t]).contains x = (x == t || c.contains x) := by
  rw [Bool.eq_iff_iff]
  simp only [List.elem_iff, Bool.or_eq_true, beq_iff_eq, List.mem_append,
    List.mem_singleton]
  tauto

theorem runPass_depsRespected (b : Behavior) (reg : String → Option String)
    (mr : Nat) (tm : List (String × OrchestrationTask)) :
    ∀ (entries : List (String × OrchestrationTask)) (st : WorkflowState)
      (c : List String) (mp : Bool),
      (∀ e ∈ entries, tm.lookup e.1 = some e.2) →
      depsRespected tm (runPass b reg mr entries st c mp).events
          (fun x => c.contains x) = true ∧
      afterRecords (runPass b reg mr entries st c mp).events
          (fun x => c.contains x) =
        (fun x => (runPass b reg mr entries st c mp).completedOut.contains x) := by
  intro entries
  induction entries with
  | nil =>
    intro st c mp hent
    simp [runPass, PassOutcome.events, PassOutcome.completedOut, depsRespected,
      afterRecords]
  | cons p rest ih =>
    obtain ⟨taskName, task⟩ := p
    intro st c mp hent
    have hent1 : tm.lookup taskName = some task := hent (taskName, task) (by simp)
    have hentr : ∀ e ∈ rest, tm.lookup e.1 = some e.2 :=
      fun e he => hent e (List.mem_cons_of_mem _ he)
    rw [runPass]
    by_cases hskip : c.contains taskName = true
    · rw [if_pos hskip]
      exact ih st c mp hentr
    · rw [if_neg hskip]
      by_cases hdeps : task.dependencies.all (fun d => c.contains d) = true
      · rw [if_pos hdeps]
        rcases hra : resolveAgent reg task with ⟨oa, wf⟩
        cases oa with
        | none =>
          simp [PassOutcome.events, PassOutcome.completedOut, depsRespected,
            afterRecords]
        | some a =>
          simp only
          have honly := retryLoop_events_only b a taskName mr 0
          cases hres : (retryLoop b a taskName mr 0).2.1 with
          | none =>
            simp only [PassOutcome.events, PassOutcome.completedOut]
            constructor
            · exact onlyTaskEvents_depsRespected a taskName tm _ honly _
                (fun task2 htm2 => by
                  rw [hent1] at htm2
                  cases htm2
                  exact hdeps)
            · exact onlyTaskEvents_afterRecords a taskName _ honly _
          | some out =>
            simp only
            have hih := ih (storeResult st taskName task.type out) (c ++ [taskName])
              true hentr
            have hfe : (fun x => (c ++ [taskName]).contains x) =
                (fun x => x == taskName || c.contains x) := by
              funext x
              exact contains_append_singleton c taskName x
            cases hrec : runPass b reg mr rest
                (storeResult st taskName task.type out) (c ++ [taskName]) true with
            | thrown m s cc evs2 =>
              rw [hrec] at hih
              simp only [PassOutcome.events, PassOutcome.completedOut] at hih ⊢
              rw [depsRespected_append, afterRecords_append]
              rw [onlyTaskEvents_afterRecords a taskName _ honly,
                onlyTaskEvents_depsRespected a taskName tm _ honly _
                  (fun task2 htm2 => by
                    rw [hent1] at htm2
                    cases htm2
                    exact hdeps)]
              simp only [depsRespected, afterRecords, Bool.true_and]
              rw [← hfe]
              exact hih
            | normal s cc mp2 evs2 =>
              rw [hrec] at hih
              simp only [PassOutcome.events, PassOutcome.completedOut] at hih ⊢
              rw [depsRespected_append, afterRecords_append]
              rw [onlyTaskEvents_afterRecords a taskName _ honly,
                onlyTaskEvents_depsRespected a taskName tm _ honly _
                  (fun task2 htm2 => by
                    rw [hent1] at htm2
                    cases htm2
                    exact hdeps)]
              simp only [depsRespected, afterRecords, Bool.true_and]
              rw [← hfe]
              exact hih
      · rw [if_neg hdeps]
        exact ih st c mp hentr

theorem runLoop_depsRespected (b : Behavior) (reg : String → Option String)
    (mr : Nat) (tm : List (String × OrchestrationTask))
    (hent : ∀ e ∈ tm, tm.lookup e.1 = some e.2) :
    ∀ (fuel : Nat) (st : WorkflowState) (c : List String),
      depsRespected tm (runLoop b reg mr tm fuel st c).events
        (fun x => c.contains x) = true := by
  intro fuel
  induction fuel with
  | zero =>
    intro st c
    rw [runLoop]
    by_cases hc : c.length < tm.length
    · rw [if_pos hc]; simp [LoopOutcome.events, depsRespected]
    · rw [if_neg hc]; simp [LoopOutcome.events, depsRespected]
  | succ f ih =>
    intro st c
    rw [runLoop]
    by_cases hc : c.length < tm.length
    · rw [if_pos hc]
      have hpd := runPass_depsRespected b reg mr tm tm st c false hent
      cases hp : runPass b reg mr tm st c false with
      | thrown m s1 c1 evs =>
        rw [hp] at hpd
        simpa [LoopOutcome.events, PassOutcome.events] using hpd.1
      | normal st1 c1 made evs =>
        rw [hp] at hpd
        simp only [PassOutcome.events, PassOutcome.completedOut] at hpd
        dsimp only
        by_cases hdl : made = false ∧ c1.length < tm.length
        · rw [if_pos hdl]
          simpa [LoopOutcome.events] using hpd.1
        · rw [if_neg hdl]
          have hil := ih st1 c1
          cases hrl : runLoop b reg mr tm f st1 c1 with
          | thrown m2 s2 e2 =>
            rw [hrl] at hil
            simp only [LoopOutcome.events] at hil ⊢
            rw [depsRespected_append, hpd.1, hpd.2, Bool.true_and]
            exact hil
          | done s2 c2 e2 =>
            rw [hrl] at hil
            simp only [LoopOutcome.events] at hil ⊢
            rw [depsRespected_append, hpd.1, hpd.2, Bool.true_and]
            exact hil
          | fuelOut s2 c2 e2 =>
            rw [hrl] at hil
            simp only [LoopOutcome.events] at hil ⊢
            rw [depsRespected_append, hpd.1, hpd.2, Bool.true_and]
            exact hil
    · rw [if_neg hc]
      simp [LoopOutcome.events, depsRespected]

theorem mem_recordsOf (nm : String) (out : AgentOutput) (evs : List Event) :
    (nm, out) ∈ recordsOf evs ↔ Event.record nm out ∈ evs := by
  induction evs with
  | nil => simp [recordsOf]
  | cons e rest ih => cases e <;> simp [recordsOf, ih]

theorem runPass_ledger (b : Behavior) (reg : String → Option String) (mr : Nat) :
    ∀ (entries : List (String × OrchestrationTask)) (st : WorkflowState)
      (c : List String) (mp : Bool) (L : List (String × AgentOutput)),
      (∀ p ∈ L, st.taskResults.lookup p.1 = some p.2 ∧ c.contains p.1 = true) →
      ∀ p ∈ L ++ recordsOf (runPass b reg mr entries st c mp).events,
        (runPass b reg mr entries st c mp).stateOut.taskResults.lookup p.1 =
            some p.2 ∧
        (runPass b reg mr entries st c mp).completedOut.contains p.1 = true := by
  intro entries
  induction entries with
  | nil =>
    intro st c mp L hL p hp
    simp only [runPass, PassOutcome.events, recordsOf, List.append_nil] at hp
    simpa [runPass, PassOutcome.stateOut, PassOutcome.completedOut] using hL p hp
  | cons q rest ih =>
    obtain ⟨taskName, task⟩ := q
    intro st c mp L hL
    rw [runPass]
    by_cases hskip : c.contains taskName = true
    · rw [if_pos hskip]
      exact ih st c mp L hL
    · rw [if_neg hskip]
      by_cases hdeps : task.dependencies.all (fun d => c.contains d) = true
      · rw [if_pos hdeps]
        rcases hra : resolveAgent reg task with ⟨oa, wf⟩
        cases oa with
        | none =>
          intro p hp
          simp only [PassOutcome.events, recordsOf, List.append_nil] at hp
          simpa [PassOutcome.stateOut, PassOutcome.completedOut] using hL p hp
        | some a =>
          simp only
          have honly := retryLoop_events_only b a taskName mr 0
          cases hres : (retryLoop b a taskName mr 0).2.1 with
          | none =>
            intro p hp
            simp only [PassOutcome.events,
              onlyTaskEvents_recordsOf a taskName _ honly, List.append_nil] at hp
            simpa [PassOutcome.stateOut, PassOutcome.completedOut] using hL p hp
          | some out =>
            simp only
            have hL2 : ∀ p ∈ L ++ [(taskName, out)],
                (storeResult st taskName task.type out).taskResults.lookup p.1 =
                    some p.2 ∧
                (c ++ [taskName]).contains p.1 = true := by
              intro p hp
              rw [List.mem_append] at hp
              rw [storeResult_taskResults]
              rcases hp with hp | hp
              · obtain ⟨hl1, hl2⟩ := hL p hp
                have hne : p.1 ≠ taskName := by
                  intro he
                  rw [he] at hl2
                  rw [hl2] at hskip
                  exact hskip rfl
                refine ⟨by rw [objSet_lookup_ne _ _ _ _ hne]; exact hl1, ?_⟩
                rw [contains_append_singleton, hl2, Bool.or_true]
              · rw [List.mem_singleton] at hp
                subst hp
                refine ⟨objSet_lookup_self _ _ _, ?_⟩
                rw [contains_append_singleton]
                simp
            have hih := ih (storeResult st taskName task.type out) (c ++ [taskName])
              true (L ++ [(taskName, out)]) hL2
            cases hrec : runPass b reg mr rest
                (storeResult st taskName task.type out) (c ++ [taskName]) true with
            | thrown m s cc evs2 =>
              rw [hrec] at hih
              intro p hp
              simp only [PassOutcome.events, PassOutcome.stateOut,
                PassOutcome.completedOut] at hih hp ⊢
              rw [recordsOf_append, onlyTaskEvents_recordsOf a taskName _ honly,
                List.nil_append, recordsOf] at hp
              rw [List.append_cons] at hp
              exact hih p hp
            | normal s cc mp2 evs2 =>
              rw [hrec] at hih
              intro p hp
              simp only [PassOutcome.events, PassOutcome.stateOut,
                PassOutcome.completedOut] at hih hp ⊢
              rw [recordsOf_append, onlyTaskEvents_recordsOf a taskName _ honly,
                List.nil_append, recordsOf] at hp
              rw [List.append_cons] at hp
              exact hih p hp
      · rw [if_neg hdeps]
        exact ih st c mp L hL

theorem runLoop_ledger (b : Behavior) (reg : String → Option String)
    (mr : Nat) (entries : List (String × OrchestrationTask)) :
    ∀ (fuel : Nat) (st : WorkflowState) (c : List String)
      (L : List (String × AgentOutput)),
      (∀ p ∈ L, st.taskResults.lookup p.1 = some p.2 ∧ c.contains p.1 = true) →
      ∀ p ∈ L ++ recordsOf (runLoop b reg mr entries fuel st c).events,
        (runLoop b reg mr entries fuel st c).stateOut.taskResults.lookup p.1 =
          some p.2 := by
  intro fuel
  induction fuel with
  | zero =>
    intro st c L hL p hp
    rw [runLoop] at hp ⊢
    by_cases hc : c.length < entries.length
    · rw [if_pos hc] at hp ⊢
      simp only [LoopOutcome.events, recordsOf, List.append_nil] at hp
      simpa [LoopOutcome.stateOut] using (hL p hp).1
    · rw [if_neg hc] at hp ⊢
      simp only [LoopOutcome.events, recordsOf, List.append_nil] at hp
      simpa [LoopOutcome.stateOut] using (hL p hp).1
  | succ f ih =>
    intro st c L hL
    rw [runLoop]
    by_cases hc : c.length < entries.length
    · rw [if_pos hc]
      have hpl := runPass_ledger b reg mr entries st c false L hL
      cases hp : runPass b reg mr entries st c false with
      | thrown m s1 c1 evs =>
        rw [hp] at hpl
        intro p hpm
        simp only [LoopOutcome.events, LoopOutcome.stateOut] at hpm ⊢
        simpa [PassOutcome.stateOut, PassOutcome.events] using (hpl p hpm).1
      | normal st1 c1 made evs =>
        rw [hp] at hpl
        simp only [PassOutcome.events, PassOutcome.stateOut,
          PassOutcome.completedOut] at hpl
        dsimp only
        by_cases hdl : made = false ∧ c1.length < entries.length
        · rw [if_pos hdl]
          intro p hpm
          simp only [LoopOutcome.events, LoopOutcome.stateOut] at hpm ⊢
          exact (hpl p hpm).1
        · rw [if_neg hdl]
          have hih := ih st1 c1 (L ++ recordsOf evs) hpl
          cases hrl : runLoop b reg mr entries f st1 c1 with
          | thrown m2 s2 e2 =>
            rw [hrl] at hih
            intro p hpm
            simp only [LoopOutcome.events, LoopOutcome.stateOut] at hih hpm ⊢
            rw [recordsOf_append, ← List.append_assoc] at hpm
            exact hih p hpm
          | done s2 c2 e2 =>
            rw [hrl] at hih
            intro p hpm
            simp only [LoopOutcome.events, LoopOutcome.stateOut] at hih hpm ⊢
            rw [recordsOf_append, ← List.append_assoc] at hpm
            exact hih p hpm
          | fuelOut s2 c2 e2 =>
            rw [hrl] at hih
            intro p hpm
            simp only [LoopOutcome.events, LoopOutcome.stateOut] at hih hpm ⊢
            rw [recordsOf_append, ← List.append_assoc] at hpm
            exact hih p hpm
    · rw [if_neg hc]
      intro p hpm
      simp only [LoopOutcome.events, recordsOf, List.append_nil] at hpm
      simpa [LoopOutcome.stateOut] using (hL p hpm).1

theorem execute_records_lookup (b : Behavior) (synthB : Option AgentOutput)
    (reg : String → Option String) (mr : Nat) (plan : List OrchestrationTask)
    (init : WorkflowState) (nm : String) (out : AgentOutput)
    (hmem : Event.record nm out ∈ (execute b synthB reg mr plan init).2) :
    (execute b synthB reg mr plan init).1.taskResults.lookup nm = some out := by
  have hld := runLoop_ledger b reg mr (buildTaskMap plan)
    ((buildTaskMap plan).length + 1)
    { init with currentStep := "executing_tasks" } [] [] (by simp)
  simp only [execute] at hmem ⊢
  cases hrl : runLoop b reg mr (buildTaskMap plan) ((buildTaskMap plan).length + 1)
      { init with currentStep := "executing_tasks" } [] with
  | thrown m s1 evs =>
    rw [hrl] at hmem hld
    simp only [LoopOutcome.events, LoopOutcome.stateOut, List.nil_append] at hmem hld
    exact hld (nm, out) ((mem_recordsOf nm out evs).mpr hmem)
  | fuelOut s1 c1 evs =>
    rw [hrl] at hmem hld
    simp only [LoopOutcome.events, LoopOutcome.stateOut, List.nil_append] at hmem hld
    exact hld (nm, out) ((mem_recordsOf nm out evs).mpr hmem)
  | done s1 c1 evs =>
    rw [hrl] at hmem hld
    simp only [LoopOutcome.events, LoopOutcome.stateOut, List.nil_append] at hmem hld
    dsimp only at hmem ⊢
    have hin : Event.record nm out ∈ evs := by
      by_cases hsy : s1.analysis.isSome = true ∨ s1.diagnosis.isSome = true ∨
          s1.recommendation.isSome = true
      · rw [if_pos hsy] at hmem
        cases synthB with
        | some o =>
          simp only at hmem
          rcases List.mem_append.mp hmem with hmem | hmem
          · exact hmem
          · simp at hmem
        | none =>
          simp only at hmem
          rcases List.mem_append.mp hmem with hmem | hmem
          · exact hmem
          · simp at hmem
      · rw [if_neg hsy] at hmem
        exact hmem
    have hcore := hld (nm, out) ((mem_recordsOf nm out evs).mpr hin)
    by_cases hsy : s1.analysis.isSome = true ∨ s1.diagnosis.isSome = true ∨
        s1.recommendation.isSome = true
    · rw [if_pos hsy]
      cases synthB with
      | some o => exact hcore
      | none => exact hcore
    · rw [if_neg hsy]
      exact hcore

theorem execute_depsRespected (b : Behavior) (synthB : Option AgentOutput)
    (reg : String → Option String) (mr : Nat) (plan : List OrchestrationTask)
    (init : WorkflowState) :
    depsRespected (buildTaskMap plan) (execute b synthB reg mr plan init).2
      (fun _ => false) = true := by
  have hld := runLoop_depsRespected b reg mr (buildTaskMap plan)
    (buildTaskMap_mem_lookup plan) ((buildTaskMap plan).length + 1)
    { init with currentStep := "executing_tasks" } []
  show depsRespected (buildTaskMap plan) (execute b synthB reg mr plan init).2
    (fun x => ([] : List String).contains x) = true
  simp only [execute]
  cases hrl : runLoop b reg mr (buildTaskMap plan)
      ((buildTaskMap plan).length + 1)
      { init with currentStep := "executing_tasks" } [] with
  | thrown m s1 evs =>
    rw [hrl] at hld
    simpa [LoopOutcome.events] using hld
  | fuelOut s1 c1 evs =>
    rw [hrl] at hld
    simpa [LoopOutcome.events] using hld
  | done s1 c1 evs =>
    rw [hrl] at hld
    simp only [LoopOutcome.events] at hld
    dsimp only
    by_cases hsy : s1.analysis.isSome = true ∨ s1.diagnosis.isSome = true ∨
        s1.recommendation.isSome = true
    · rw [if_pos hsy]
      cases synthB with
      | some o =>
        simp only
        rw [depsRespected_append, hld, Bool.true_and]
        simp [depsRespected]
      | none =>
        simp only
        rw [depsRespected_append, hld, Bool.true_and]
        simp [depsRespected]
    · rw [if_neg hsy]
      exact hld

/-- C1: dependency ordering.  In every run, a worker for a task of the plan
is invoked only after every task named in its dependencies has been
recorded — along the event trace, each `invoke` of a mapped task finds all
of the task's dependencies in the recorded-so-far set, which starts empty —
and every recorded dependency indeed has its result in the returned
task-result store. -/
theorem claim_C1 (b : Behavior) (synthB : Option AgentOutput)
    (reg : String → Option String) (mr : Nat) (plan : List OrchestrationTask)
    (init : WorkflowState) :
    depsRespected (buildTaskMap plan) (execute b synthB reg mr plan init).2
      (fun _ => false) = true ∧
    (∀ nm out, Event.record nm out ∈ (execute b synthB reg mr plan init).2 →
      (execute b synthB reg mr plan init).1.taskResults.lookup nm = some out) :=
  ⟨execute_depsRespected b synthB reg mr plan init,
   fun nm out hmem =>
     execute_records_lookup b synthB reg mr plan init nm out hmem⟩

/-- Witness for C1 on a concrete two-task chain run. -/
theorem claim_C1_witness :
    depsRespected (buildTaskMap
        [⟨"A", "analysis", [], none⟩, ⟨"B", "diagnosis", ["A"], none⟩])
      (execute (fun _ _ _ => some 7) (some 9) (mkRegistry []) 0
        [⟨"A", "analysis", [], none⟩, ⟨"B", "diagnosis", ["A"], none⟩]
        freshState).2 (fun _ => false) = true ∧
    (execute (fun _ _ _ => some 7) (some 9) (mkRegistry []) 0
        [⟨"A", "analysis", [], none⟩, ⟨"B", "diagnosis", ["A"], none⟩]
        freshState).1.taskResults.lookup "B" = some 7 :=
  ⟨(claim_C1 (fun _ _ _ => some 7) (some 9) (mkRegistry []) 0
      [⟨"A", "analysis", [], none⟩, ⟨"B", "diagnosis", ["A"], none⟩]
      freshState).1,
   (claim_C1 (fun _ _ _ => some 7) (some 9) (mkRegistry []) 0
      [⟨"A", "analysis", [], none⟩, ⟨"B", "diagnosis", ["A"], none⟩]
      freshState).2 "B" 7 (by decide)⟩

theorem runPass_recordsOnce (b : Behavior) (reg : String → Option String)
    (mr : Nat) :
    ∀ (entries : List (String × OrchestrationTask)) (st : WorkflowState)
      (c : List String) (mp : Bool) (seen : List String),
      (∀ x, seen.contains x = true → c.contains x = true) →
      recordsOnce (runPass b reg mr entries st c mp).events seen = true ∧
      (∀ x, (seenAfter (runPass b reg mr entries st c mp).events seen).contains x
          = true →
        (runPass b reg mr entries st c mp).completedOut.contains x = true) := by
  intro entries
  induction entries with
  | nil =>
    intro st c mp seen hseen
    simp only [runPass, PassOutcome.events, PassOutcome.completedOut, recordsOnce,
      seenAfter]
    exact ⟨trivial, hseen⟩
  | cons q rest ih =>
    obtain ⟨taskName, task⟩ := q
    intro st c mp seen hseen
    rw [runPass]
    by_cases hskip : c.contains taskName = true
    · rw [if_pos hskip]
      exact ih st c mp seen hseen
    · rw [if_neg hskip]
      by_cases hdeps : task.dependencies.all (fun d => c.contains d) = true
      · rw [if_pos hdeps]
        have hseenT : seen.contains taskName = false := by
          cases hst : seen.contains taskName with
          | false => rfl
          | true => exact absurd (hseen taskName hst) hskip
        rcases hra : resolveAgent reg task with ⟨oa, wf⟩
        cases oa with
        | none =>
          simp only [PassOutcome.events, PassOutcome.completedOut, recordsOnce,
            seenAfter]
          exact ⟨trivial, hseen⟩
        | some a =>
          simp only
          have honly := retryLoop_events_only b a taskName mr 0
          cases hres : (retryLoop b a taskName mr 0).2.1 with
          | none =>
            simp only [PassOutcome.events, PassOutcome.completedOut]
            refine ⟨onlyTaskEvents_recordsOnce a taskName _ honly seen hseenT, ?_⟩
            rw [onlyTaskEvents_seenAfter a taskName _ honly]
            exact hseen
          | some out =>
            simp only
            have hseen2 : ∀ x, (taskName :: seen).contains x = true →
                (c ++ [taskName]).contains x = true := by
              intro x hx
              rw [List.contains_cons] at hx
              rw [contains_append_singleton]
              rcases Bool.or_eq_true_iff.mp hx with hx | hx
              · rw [hx]; rfl
              · rw [hseen x hx, Bool.or_true]
            have hih := ih (storeResult st taskName task.type out) (c ++ [taskName])
              true (taskName :: seen) hseen2
            cases hrec : runPass b reg mr rest
                (storeResult st taskName task.type out) (c ++ [taskName]) true with
            | thrown m s cc evs2 =>
              rw [hrec] at hih
              simp only [PassOutcome.events, PassOutcome.completedOut] at hih ⊢
              rw [recordsOnce_append, seenAfter_append,
                onlyTaskEvents_seenAfter a taskName _ honly,
                onlyTaskEvents_recordsOnce a taskName _ honly seen hseenT,
                Bool.true_and]
              simp only [recordsOnce, seenAfter, hseenT, Bool.not_false,
                Bool.true_and]
              exact hih
            | normal s cc mp2 evs2 =>
              rw [hrec] at hih
              simp only [PassOutcome.events, PassOutcome.completedOut] at hih ⊢
              rw [recordsOnce_append, seenAfter_append,
                onlyTaskEvents_seenAfter a taskName _ honly,
                onlyTaskEvents_recordsOnce a taskName _ honly seen hseenT,
                Bool.true_and]
              simp only [recordsOnce, seenAfter, hseenT, Bool.not_false,
                Bool.true_and]
              exact hih
      · rw [if_neg hdeps]
        exact ih st c mp seen hseen

theorem runLoop_recordsOnce (b : Behavior) (reg : String → Option String)
    (mr : Nat) (entries : List (String × OrchestrationTask)) :
    ∀ (fuel : Nat) (st : WorkflowState) (c : List String) (seen : List String),
      (∀ x, seen.contains x = true → c.contains x = true) →
      recordsOnce (runLoop b reg mr entries fuel st c).events seen = true := by
  intro fuel
  induction fuel with
  | zero =>
    intro st c seen hseen
    rw [runLoop]
    by_cases hc : c.length < entries.length
    · rw [if_pos hc]; simp [LoopOutcome.events, recordsOnce]
    · rw [if_neg hc]; simp [LoopOutcome.events, recordsOnce]
  | succ f ih =>
    intro st c seen hseen
    rw [runLoop]
    by_cases hc : c.length < entries.length
    · rw [if_pos hc]
      have hpr := runPass_recordsOnce b reg mr entries st c false seen hseen
      cases hp : runPass b reg mr entries st c false with
      | thrown m s1 c1 evs =>
        rw [hp] at hpr
        simpa [LoopOutcome.events, PassOutcome.events] using hpr.1
      | normal st1 c1 made evs =>
        rw [hp] at hpr
        simp only [PassOutcome.events, PassOutcome.completedOut] at hpr
        dsimp only
        by_cases hdl : made = false ∧ c1.length < entries.length
        · rw [if_pos hdl]
          simpa [LoopOutcome.events] using hpr.1
        · rw [if_neg hdl]
          have hil := ih st1 c1 (seenAfter evs seen) hpr.2
          cases hrl : runLoop b reg mr entries f st1 c1 with
          | thrown m2 s2 e2 =>
            rw [hrl] at hil
            simp only [LoopOutcome.events] at hil ⊢
            rw [recordsOnce_append, hpr.1, Bool.true_and]
            exact hil
          | done s2 c2 e2 =>
            rw [hrl] at hil
            simp only [LoopOutcome.events] at hil ⊢
            rw [recordsOnce_append, hpr.1, Bool.true_and]
            exact hil
          | fuelOut s2 c2 e2 =>
            rw [hrl] at hil
            simp only [LoopOutcome.events] at hil ⊢
            rw [recordsOnce_append, hpr.1, Bool.true_and]
            exact hil
    · rw [if_neg hc]
      simp [LoopOutcome.events, recordsOnce]

/-- Counterexample to C9 as stated: with `maxRetries = 0` and a worker that
always throws, task `A` exhausts its retries but is NEVER written to the
task-result store — the store stays empty and the run aborts — contradicting
the claim that a task name is written (exactly once) when it exhausts its
retries. -/
theorem claim_C9_counterexample :
    (execute (fun _ _ _ => none) (some 9) (mkRegistry []) 0
        [⟨"A", "analysis", [], none⟩] freshState).1.taskResults = [] ∧
    (execute (fun _ _ _ => none) (some 9) (mkRegistry []) 0
        [⟨"A", "analysis", [], none⟩] freshState).1.error =
      some (failMsg "A" 1) := by
  exact ⟨rfl, rfl⟩

/-- C9 (amended): within a single run each task name is written to the
task-result store at most once, exactly when the task succeeds (a task that
exhausts its retries is never written — the run aborts instead); the name
enters the completed set at the same recording moment, an already-recorded
task is never invoked again, and a stored result is never overwritten — the
output carried by a task's record event is the task's result in the
returned store. -/
theorem claim_C9 (b : Behavior) (synthB : Option AgentOutput)
    (reg : String → Option String) (mr : Nat) (plan : List OrchestrationTask)
    (init : WorkflowState) :
    recordsOnce (execute b synthB reg mr plan init).2 [] = true ∧
    (∀ nm out, Event.record nm out ∈ (execute b synthB reg mr plan init).2 →
      (execute b synthB reg mr plan init).1.taskResults.lookup nm = some out) := by
  constructor
  · have hld := runLoop_recordsOnce b reg mr (buildTaskMap plan)
      ((buildTaskMap plan).length + 1)
      { init with currentStep := "executing_tasks" } [] [] (by simp)
    simp only [execute]
    cases hrl : runLoop b reg mr (buildTaskMap plan)
        ((buildTaskMap plan).length + 1)
        { init with currentStep := "executing_tasks" } [] with
    | thrown m s1 evs =>
      rw [hrl] at hld
      simpa [LoopOutcome.events] using hld
    | fuelOut s1 c1 evs =>
      rw [hrl] at hld
      simpa [LoopOutcome.events] using hld
    | done s1 c1 evs =>
      rw [hrl] at hld
      simp only [LoopOutcome.events] at hld
      dsimp only
      by_cases hsy : s1.analysis.isSome = true ∨ s1.diagnosis.isSome = true ∨
          s1.recommendation.isSome = true
      · rw [if_pos hsy]
        cases synthB with
        | some o =>
          simp only
          rw [recordsOnce_append, hld, Bool.true_and]
          simp [recordsOnce]
        | none =>
          simp only
          rw [recordsOnce_append, hld, Bool.true_and]
          simp [recordsOnce]
      · rw [if_neg hsy]
        exact hld
  · exact fun nm out hmem =>
      execute_records_lookup b synthB reg mr plan init nm out hmem

/-- Witness for C9 on a concrete run with two tasks. -/
theorem claim_C9_witness :
    recordsOnce (execute (fun _ _ _ => some 3) (some 9) (mkRegistry []) 1
        [⟨"A", "analysis", [], none⟩, ⟨"B", "context", ["A"], none⟩]
        freshState).2 [] = true ∧
    (execute (fun _ _ _ => some 3) (some 9) (mkRegistry []) 1
        [⟨"A", "analysis", [], none⟩, ⟨"B", "context", ["A"], none⟩]
        freshState).1.taskResults.lookup "A" = some 3 :=
  ⟨(claim_C9 (fun _ _ _ => some 3) (some 9) (mkRegistry []) 1
      [⟨"A", "analysis", [], none⟩, ⟨"B", "context", ["A"], none⟩]
      freshState).1,
   (claim_C9 (fun _ _ _ => some 3) (some 9) (mkRegistry []) 1
      [⟨"A", "analysis", [], none⟩, ⟨"B", "context", ["A"], none⟩]
      freshState).2 "A" 3 (by decide)⟩

theorem runPass_alwaysFail (b : Behavior) (reg : String → Option String)
    (mr : Nat) (t : String) :
    ∀ (entries : List (String × OrchestrationTask)) (st : WorkflowState)
      (c : List String) (mp : Bool),
      (∀ task2, (t, task2) ∈ entries → ∀ a wf2,
        resolveAgent reg task2 = (some a, wf2) → ∀ k, b a t k = none) →
      c.contains t = false →
      (runPass b reg mr entries st c mp).completedOut.contains t = false ∧
      (∀ out, Event.record t out ∉ (runPass b reg mr entries st c mp).events) ∧
      (∀ w k, Event.invoke w t k ∈ (runPass b reg mr entries st c mp).events →
        ∃ s cc evs, runPass b reg mr entries st c mp =
          PassOutcome.thrown (failMsg t (mr + 1)) s cc evs) := by
  intro entries
  induction entries with
  | nil =>
    intro st c mp hw hc
    refine ⟨by simpa [runPass, PassOutcome.completedOut] using hc, ?_, ?_⟩
    · intro out hmem
      simp [runPass, PassOutcome.events] at hmem
    · intro w k hmem
      simp [runPass, PassOutcome.events] at hmem
  | cons q rest ih =>
    obtain ⟨taskName, task⟩ := q
    intro st c mp hw hc
    have hwr : ∀ task2, (t, task2) ∈ rest → ∀ a wf2,
        resolveAgent reg task2 = (some a, wf2) → ∀ k, b a t k = none :=
      fun task2 hm => hw task2 (List.mem_cons_of_mem _ hm)
    rw [runPass]
    by_cases hskip : c.contains taskName = true
    · rw [if_pos hskip]
      exact ih st c mp hwr hc
    · rw [if_neg hskip]
      by_cases hdeps : task.dependencies.all (fun d => c.contains d) = true
      · rw [if_pos hdeps]
        rcases hra : resolveAgent reg task with ⟨oa, wf⟩
        cases oa with
        | none =>
          refine ⟨by simpa [PassOutcome.completedOut] using hc, ?_, ?_⟩
          · intro out hmem
            simp [PassOutcome.events] at hmem
          · intro w k hmem
            simp [PassOutcome.events] at hmem
        | some a =>
          simp only
          have honly := retryLoop_events_only b a taskName mr 0
          by_cases hteq : taskName = t
          · subst hteq
            have hall := retryLoop_allFail b a taskName mr
              (hw task (List.mem_cons_self _ _) a wf hra) 0
              (by omega)
            rw [Prod.ext_iff] at hall
            rw [hall.1]
            simp only [PassOutcome.events, PassOutcome.completedOut]
            refine ⟨hc, ?_, ?_⟩
            · intro out hmem
              exact onlyTaskEvents_no_record a taskName taskName out _ honly hmem
            · intro w k hmem
              refine ⟨st, c, (retryLoop b a taskName mr 0).1, ?_⟩
              rw [hall.2]
          · have hnt : t ≠ taskName := fun he => hteq he.symm
            cases hres : (retryLoop b a taskName mr 0).2.1 with
            | none =>
              simp only [PassOutcome.events, PassOutcome.completedOut]
              refine ⟨hc, ?_, ?_⟩
              · intro out hmem
                exact onlyTaskEvents_no_record a taskName t out _ honly hmem
              · intro w k hmem
                exact absurd hmem
                  (onlyTaskEvents_no_invoke_ne a taskName t _ honly hnt w k)
            | some out =>
              simp only
              have hc2 : (c ++ [taskName]).contains t = false := by
                rw [contains_append_singleton, hc, Bool.or_false]
                exact beq_false_of_ne hnt
              have hih := ih (storeResult st taskName task.type out)
                (c ++ [taskName]) true hwr hc2
              cases hrec : runPass b reg mr rest
                  (storeResult st taskName task.type out) (c ++ [taskName]) true with
              | thrown m s cc evs2 =>
                rw [hrec] at hih
                simp only [PassOutcome.events, PassOutcome.completedOut] at hih ⊢
                refine ⟨hih.1, ?_, ?_⟩
                · intro out2 hmem
                  rcases List.mem_append.mp hmem with hmem | hmem
                  · exact onlyTaskEvents_no_record a taskName t out2 _ honly hmem
                  · rcases List.mem_cons.mp hmem with hmem | hmem
                    · injection hmem with h1 h2
                      exact hnt h1
                    · exact hih.2.1 out2 hmem
                · intro w k hmem
                  rcases List.mem_append.mp hmem with hmem | hmem
                  · exact absurd hmem
                      (onlyTaskEvents_no_invoke_ne a taskName t _ honly hnt w k)
                  · rcases List.mem_cons.mp hmem with hmem | hmem
                    · exact absurd hmem (by simp)
                    · obtain ⟨s2, cc2, evs3, heq⟩ := hih.2.2 w k hmem
                      injection heq with h1 h2 h3 h4
                      refine ⟨s, cc,
                        (retryLoop b a taskName mr 0).1 ++
                          Event.record taskName out :: evs2, ?_⟩
                      rw [h1]
              | normal s cc mp2 evs2 =>
                rw [hrec] at hih
                simp only [PassOutcome.events, PassOutcome.completedOut] at hih ⊢
                refine ⟨hih.1, ?_, ?_⟩
                · intro out2 hmem
                  rcases List.mem_append.mp hmem with hmem | hmem
                  · exact onlyTaskEvents_no_record a taskName t out2 _ honly hmem
                  · rcases List.mem_cons.mp hmem with hmem | hmem
                    · injection hmem with h1 h2
                      exact hnt h1
                    · exact hih.2.1 out2 hmem
                · intro w k hmem
                  rcases List.mem_append.mp hmem with hmem | hmem
                  · exact absurd hmem
                      (onlyTaskEvents_no_invoke_ne a taskName t _ honly hnt w k)
                  · rcases List.mem_cons.mp hmem with hmem | hmem
                    · exact absurd hmem (by simp)
                    · obtain ⟨s2, cc2, evs3, heq⟩ := hih.2.2 w k hmem
                      exact absurd heq (by simp)
      · rw [if_neg hdeps]
        exact ih st c mp hwr hc

theorem runLoop_alwaysFail (b : Behavior) (reg : String → Option String)
    (mr : Nat) (t : String) (entries : List (String × OrchestrationTask))
    (hw : ∀ task2, (t, task2) ∈ entries → ∀ a wf2,
      resolveAgent reg task2 = (some a, wf2) → ∀ k, b a t k = none) :
    ∀ (fuel : Nat) (st : WorkflowState) (c : List String),
      c.contains t = false →
      (∀ out, Event.record t out ∉ (runLoop b reg mr entries fuel st c).events) ∧
      (∀ w k, Event.invoke w t k ∈ (runLoop b reg mr entries fuel st c).events →
        ∃ s evs, runLoop b reg mr entries fuel st c =
          LoopOutcome.thrown (failMsg t (mr + 1)) s evs) := by
  intro fuel
  induction fuel with
  | zero =>
    intro st c hc
    rw [runLoop]
    by_cases hcc : c.length < entries.length
    · rw [if_pos hcc]
      constructor
      · intro out hmem
        simp [LoopOutcome.events] at hmem
      · intro w k hmem
        simp [LoopOutcome.events] at hmem
    · rw [if_neg hcc]
      constructor
      · intro out hmem
        simp [LoopOutcome.events] at hmem
      · intro w k hmem
        simp [LoopOutcome.events] at hmem
  | succ f ih =>
    intro st c hc
    rw [runLoop]
    by_cases hcc : c.length < entries.length
    · rw [if_pos hcc]
      have hpf := runPass_alwaysFail b reg mr t entries st c false hw hc
      cases hp : runPass b reg mr entries st c false with
      | thrown m s1 c1 evs =>
        rw [hp] at hpf
        simp only [PassOutcome.events, PassOutcome.completedOut] at hpf
        constructor
        · intro out hmem
          simp only [LoopOutcome.events] at hmem
          exact hpf.2.1 out hmem
        · intro w k hmem
          simp only [LoopOutcome.events] at hmem
          obtain ⟨s2, cc2, evs2, heq⟩ := hpf.2.2 w k hmem
          injection heq with h1 h2 h3 h4
          exact ⟨s1, evs, by rw [h1]⟩
      | normal st1 c1 made evs =>
        rw [hp] at hpf
        simp only [PassOutcome.events, PassOutcome.completedOut] at hpf
        dsimp only
        by_cases hdl : made = false ∧ c1.length < entries.length
        · rw [if_pos hdl]
          constructor
          · intro out hmem
            simp only [LoopOutcome.events] at hmem
            exact hpf.2.1 out hmem
          · intro w k hmem
            simp only [LoopOutcome.events] at hmem
            obtain ⟨s2, cc2, evs2, heq⟩ := hpf.2.2 w k hmem
            exact absurd heq (by simp)
        · rw [if_neg hdl]
          have hil := ih st1 c1 hpf.1
          cases hrl : runLoop b reg mr entries f st1 c1 with
          | thrown m2 s2 e2 =>
            rw [hrl] at hil
            simp only [LoopOutcome.events] at hil ⊢
            constructor
            · intro out hmem
              rcases List.mem_append.mp hmem with hmem | hmem
              · exact hpf.2.1 out hmem
              · exact hil.1 out hmem
            · intro w k hmem
              rcases List.mem_append.mp hmem with hmem | hmem
              · obtain ⟨s3, cc3, evs3, heq⟩ := hpf.2.2 w k hmem
                exact absurd heq (by simp)
              · obtain ⟨s3, evs3, heq⟩ := hil.2 w k hmem
                injection heq with h1 h2 h3
                exact ⟨s2, evs ++ e2, by rw [h1]⟩
          | done s2 c2 e2 =>
            rw [hrl] at hil
            simp only [LoopOutcome.events] at hil ⊢
            constructor
            · intro out hmem
              rcases List.mem_append.mp hmem with hmem | hmem
              · exact hpf.2.1 out hmem
              · exact hil.1 out hmem
            · intro w k hmem
              rcases List.mem_append.mp hmem with hmem | hmem
              · obtain ⟨s3, cc3, evs3, heq⟩ := hpf.2.2 w k hmem
                exact absurd heq (by simp)
              · obtain ⟨s3, evs3, heq⟩ := hil.2 w k hmem
                exact absurd heq (by simp)
          | fuelOut s2 c2 e2 =>
            rw [hrl] at hil
            simp only [LoopOutcome.events] at hil ⊢
            constructor
            · intro out hmem
              rcases List.mem_append.mp hmem with hmem | hmem
              · exact hpf.2.1 out hmem
              · exact hil.1 out hmem
            · intro w k hmem
              rcases List.mem_append.mp hmem with hmem | hmem
              · obtain ⟨s3, cc3, evs3, heq⟩ := hpf.2.2 w k hmem
                exact absurd heq (by simp)
              · obtain ⟨s3, evs3, heq⟩ := hil.2 w k hmem
                exact absurd heq (by simp)
    · rw [if_neg hcc]
      constructor
      · intro out hmem
        simp [LoopOutcome.events] at hmem
      · intro w k hmem
        simp [LoopOutcome.events] at hmem

theorem depsRespected_no_dependent_invoke
    (tm : List (String × OrchestrationTask)) (t : String) :
    ∀ (evs : List Event) (comp : String → Bool),
      depsRespected tm evs comp = true →
      (∀ out, Event.record t out ∉ evs) →
      comp t = false →
      ∀ u tu, tm.lookup u = some tu → t ∈ tu.dependencies →
        ∀ w k, Event.invoke w u k ∉ evs := by
  intro evs
  induction evs with
  | nil =>
    intro comp hdr hnr hcomp u tu htm hdep w k hmem
    simp at hmem
  | cons e rest ih =>
    intro comp hdr hnr hcomp u tu htm hdep w k hmem
    cases e with
    | invoke w1 u1 k1 =>
      simp only [depsRespected] at hdr
      rcases List.mem_cons.mp hmem with hmem | hmem
      · injection hmem with h1 h2 h3
        subst h2
        rw [htm] at hdr
        rw [Bool.and_eq_true] at hdr
        have hall := List.all_eq_true.mp hdr.1 t hdep
        rw [hall] at hcomp
        exact Bool.noConfusion hcomp
      · rw [Bool.and_eq_true] at hdr
        exact ih comp hdr.2 (fun out hmm => hnr out (List.mem_cons_of_mem _ hmm))
          hcomp u tu htm hdep w k hmem
    | delay t1 ms =>
      simp only [depsRespected] at hdr
      rcases List.mem_cons.mp hmem with hmem | hmem
      · exact absurd hmem (by simp)
      · exact ih comp hdr (fun out hmm => hnr out (List.mem_cons_of_mem _ hmm))
          hcomp u tu htm hdep w k hmem
    | record s o =>
      simp only [depsRespected] at hdr
      rcases List.mem_cons.mp hmem with hmem | hmem
      · exact absurd hmem (by simp)
      · have hst : s ≠ t := by
          intro he
          subst he
          exact hnr o (List.mem_cons_self _ _)
        have hcomp2 : (t == s || comp t) = false := by
          rw [beq_false_of_ne (fun he => hst he.symm), hcomp]
          rfl
        exact ih _ hdr (fun out hmm => hnr out (List.mem_cons_of_mem _ hmm))
          hcomp2 u tu htm hdep w k hmem
    | warn ty =>
      simp only [depsRespected] at hdr
      rcases List.mem_cons.mp hmem with hmem | hmem
      · exact absurd hmem (by simp)
      · exact ih comp hdr (fun out hmm => hnr out (List.mem_cons_of_mem _ hmm))
          hcomp u tu htm hdep w k hmem
    | synth =>
      simp only [depsRespected] at hdr
      rcases List.mem_cons.mp hmem with hmem | hmem
      · exact absurd hmem (by simp)
      · exact ih comp hdr (fun out hmm => hnr out (List.mem_cons_of_mem _ hmm))
          hcomp u tu htm hdep w k hmem

theorem execute_events_eq (b : Behavior) (synthB : Option AgentOutput)
    (reg : String → Option String) (mr : Nat) (plan : List OrchestrationTask)
    (init : WorkflowState) :
    (execute b synthB reg mr plan init).2 =
      (runLoop b reg mr (buildTaskMap plan) ((buildTaskMap plan).length + 1)
        { init with currentStep := "executing_tasks" } []).events ∨
    (execute b synthB reg mr plan init).2 =
      (runLoop b reg mr (buildTaskMap plan) ((buildTaskMap plan).length + 1)
        { init with currentStep := "executing_tasks" } []).events ++
        [Event.synth] := by
  simp only [execute]
  cases hrl : runLoop b reg mr (buildTaskMap plan) ((buildTaskMap plan).length + 1)
      { init with currentStep := "executing_tasks" } [] with
  | thrown m s1 evs => exact Or.inl rfl
  | fuelOut s1 c1 evs => exact Or.inl rfl
  | done s1 c1 evs =>
    dsimp only [LoopOutcome.events]
    by_cases hsy : s1.analysis.isSome = true ∨ s1.diagnosis.isSome = true ∨
        s1.recommendation.isSome = true
    · rw [if_pos hsy]
      cases synthB with
      | some o => exact Or.inr rfl
      | none => exact Or.inr rfl
    · rw [if_neg hsy]
      exact Or.inl rfl

/-- C3: fail-fast on retry exhaustion.  If some dispatched task's worker
throws on every attempt (with `maxRetries = 0`, a single throw), the run
terminates with `state.error` set to the failure message naming that task
and the attempt count `maxRetries + 1`; no task that names the failed task
among its dependencies is ever dispatched; and every task recorded before
the fatal point still has its result in the returned per-task results. -/
theorem claim_C3 (b : Behavior) (synthB : Option AgentOutput)
    (reg : String → Option String) (mr : Nat) (plan : List OrchestrationTask)
    (init : WorkflowState) (t : String)
    (hf : ∀ w k, b w t k = none)
    (hinv : ∃ w k, Event.invoke w t k ∈ (execute b synthB reg mr plan init).2) :
    (execute b synthB reg mr plan init).1.error = some (failMsg t (mr + 1)) ∧
    (∀ u tu, (buildTaskMap plan).lookup u = some tu → t ∈ tu.dependencies →
      ∀ w k, Event.invoke w u k ∉ (execute b synthB reg mr plan init).2) ∧
    (∀ nm out, Event.record nm out ∈ (execute b synthB reg mr plan init).2 →
      (execute b synthB reg mr plan init).1.taskResults.lookup nm = some out) := by
  obtain ⟨w0, k0, hmem0⟩ := hinv
  have hle : Event.invoke w0 t k0 ∈
      (runLoop b reg mr (buildTaskMap plan) ((buildTaskMap plan).length + 1)
        { init with currentStep := "executing_tasks" } []).events := by
    rcases execute_events_eq b synthB reg mr plan init with he | he
    · rw [he] at hmem0
      exact hmem0
    · rw [he] at hmem0
      rcases List.mem_append.mp hmem0 with h | h
      · exact h
      · simp at h
  have hLoop := runLoop_alwaysFail b reg mr t (buildTaskMap plan)
    (fun task2 _ a _ _ k => hf a k)
    ((buildTaskMap plan).length + 1) { init with currentStep := "executing_tasks" }
    [] (by rfl)
  obtain ⟨s1, evs1, heq⟩ := hLoop.2 w0 k0 hle
  refine ⟨?_, ?_, ?_⟩
  · simp only [execute]
    rw [heq]
  · intro u tu htm hdep w k hmemu
    have hleu : Event.invoke w u k ∈
        (runLoop b reg mr (buildTaskMap plan) ((buildTaskMap plan).length + 1)
          { init with currentStep := "executing_tasks" } []).events := by
      rcases execute_events_eq b synthB reg mr plan init with he | he
      · rw [he] at hmemu
        exact hmemu
      · rw [he] at hmemu
        rcases List.mem_append.mp hmemu with h | h
        · exact h
        · simp at h
    exact depsRespected_no_dependent_invoke (buildTaskMap plan) t _ _
      (runLoop_depsRespected b reg mr (buildTaskMap plan)
        (buildTaskMap_mem_lookup plan) ((buildTaskMap plan).length + 1)
        { init with currentStep := "executing_tasks" } [])
      hLoop.1 (by rfl) u tu htm hdep w k hleu
  · exact fun nm out hm =>
      execute_records_lookup b synthB reg mr plan init nm out hm

/-- Witness for C3: with `maxRetries = 0`, the worker for `B` throws once;
the run fails naming `B` and 1 attempt, the dependent `C` is never
dispatched, and `A`'s earlier result survives. -/
theorem claim_C3_witness :
    (execute (fun _ tk _ => if tk = "B" then none else some 5) (some 9)
        (mkRegistry []) 0
        [⟨"A", "analysis", [], none⟩, ⟨"B", "diagnosis", ["A"], none⟩,
         ⟨"C", "recommendation", ["B"], none⟩] freshState).1.error =
      some (failMsg "B" (0 + 1)) ∧
    Event.invoke "recommendation" "C" 1 ∉
      (execute (fun _ tk _ => if tk = "B" then none else some 5) (some 9)
        (mkRegistry []) 0
        [⟨"A", "analysis", [], none⟩, ⟨"B", "diagnosis", ["A"], none⟩,
         ⟨"C", "recommendation", ["B"], none⟩] freshState).2 ∧
    (execute (fun _ tk _ => if tk = "B" then none else some 5) (some 9)
        (mkRegistry []) 0
        [⟨"A", "analysis", [], none⟩, ⟨"B", "diagnosis", ["A"], none⟩,
         ⟨"C", "recommendation", ["B"], none⟩]
        freshState).1.taskResults.lookup "A" = some 5 := by
  have h := claim_C3 (fun _ tk _ => if tk = "B" then none else some 5) (some 9)
    (mkRegistry []) 0
    [⟨"A", "analysis", [], none⟩, ⟨"B", "diagnosis", ["A"], none⟩,
     ⟨"C", "recommendation", ["B"], none⟩] freshState "B"
    (fun w k => rfl)
    ⟨"diagnosis", 1, by decide⟩
  exact ⟨h.1,
    h.2.1 "C" ⟨"C", "recommendation", ["B"], none⟩ (by decide) (by decide)
      "recommendation" 1,
    h.2.2 "A" 5 (by decide)⟩

theorem runPass_invokeCount (b : Behavior) (reg : String → Option String)
    (mr : Nat) (t : String) :
    ∀ (entries : List (String × OrchestrationTask)) (st : WorkflowState)
      (c : List String) (mp : Bool),
      (invokeCount t (runPass b reg mr entries st c mp).events ≤
        if c.contains t = true then 0 else mr + 1) ∧
      (∀ s cc made evs, runPass b reg mr entries st c mp =
          PassOutcome.normal s cc made evs →
        cc.contains t = false → invokeCount t evs = 0) := by
  intro entries
  induction entries with
  | nil =>
    intro st c mp
    constructor
    · simp only [runPass, PassOutcome.events, invokeCount]
      split_ifs <;> omega
    · intro s cc made evs h hcc
      simp only [runPass, PassOutcome.normal.injEq] at h
      rw [← h.2.2.2, invokeCount]
  | cons q rest ih =>
    obtain ⟨taskName, task⟩ := q
    intro st c mp
    rw [runPass]
    by_cases hskip : c.contains taskName = true
    · rw [if_pos hskip]
      exact ih st c mp
    · rw [if_neg hskip]
      by_cases hdeps : task.dependencies.all (fun d => c.contains d) = true
      · rw [if_pos hdeps]
        rcases hra : resolveAgent reg task with ⟨oa, wf⟩
        cases oa with
        | none =>
          constructor
          · simp only [PassOutcome.events, invokeCount]
            split_ifs <;> omega
          · intro s cc made evs h hcc
            exact absurd h (by simp)
        | some a =>
          simp only
          have honly := retryLoop_events_only b a taskName mr 0
          cases hres : (retryLoop b a taskName mr 0).2.1 with
          | none =>
            constructor
            · simp only [PassOutcome.events]
              by_cases hteq : taskName = t
              · subst hteq
                have hcnt := retryLoop_invokeCount_self b a taskName mr 0 (by omega)
                rw [if_neg (by rw [Bool.not_eq_true] at hskip ⊢; exact hskip)]
                omega
              · rw [onlyTaskEvents_invokeCount_ne a taskName t _ honly
                  (fun he => hteq he.symm)]
                split_ifs <;> omega
            · intro s cc made evs h hcc
              exact absurd h (by simp)
          | some out =>
            simp only
            have hih := ih (storeResult st taskName task.type out) (c ++ [taskName])
              true
            cases hrec : runPass b reg mr rest
                (storeResult st taskName task.type out) (c ++ [taskName]) true with
            | thrown m s cc evs2 =>
              rw [hrec] at hih
              simp only [PassOutcome.events] at hih ⊢
              constructor
              · rw [invokeCount_append]
                simp only [invokeCount]
                by_cases hteq : taskName = t
                · subst hteq
                  have hcnt := retryLoop_invokeCount_self b a taskName mr 0 (by omega)
                  have h2 : (c ++ [taskName]).contains taskName = true := by
                    rw [contains_append_singleton]
                    simp
                  have := hih.1
                  rw [if_pos h2] at this
                  rw [if_neg (by rw [Bool.not_eq_true] at hskip ⊢; exact hskip)]
                  omega
                · rw [onlyTaskEvents_invokeCount_ne a taskName t _ honly
                    (fun he => hteq he.symm)]
                  have h2 : (c ++ [taskName]).contains t = c.contains t := by
                    rw [contains_append_singleton,
                      beq_false_of_ne (fun he => hteq he.symm), Bool.false_or]
                  have := hih.1
                  rw [h2] at this
                  split_ifs at this ⊢ <;> omega
              · intro s2 cc2 made2 evs3 h hcc
                exact absurd h (by simp)
            | normal s cc mp2 evs2 =>
              rw [hrec] at hih
              simp only [PassOutcome.events] at hih ⊢
              obtain ⟨added2, hadd2, _, _⟩ := runPass_normal_spec b reg mr rest
                (storeResult st taskName task.type out) (c ++ [taskName]) true
                s cc mp2 evs2 hrec
              constructor
              · rw [invokeCount_append]
                simp only [invokeCount]
                by_cases hteq : taskName = t
                · subst hteq
                  have hcnt := retryLoop_invokeCount_self b a taskName mr 0 (by omega)
                  have h2 : (c ++ [taskName]).contains taskName = true := by
                    rw [contains_append_singleton]
                    simp
                  have := hih.1
                  rw [if_pos h2] at this
                  rw [if_neg (by rw [Bool.not_eq_true] at hskip ⊢; exact hskip)]
                  omega
                · rw [onlyTaskEvents_invokeCount_ne a taskName t _ honly
                    (fun he => hteq he.symm)]
                  have h2 : (c ++ [taskName]).contains t = c.contains t := by
                    rw [contains_append_singleton,
                      beq_false_of_ne (fun he => hteq he.symm), Bool.false_or]
                  have := hih.1
                  rw [h2] at this
                  split_ifs at this ⊢ <;> omega
              · intro s2 cc2 made2 evs3 h hcc
                injection h with h1 h2 h3 h4
                rw [← h4, invokeCount_append]
                simp only [invokeCount]
                have hcc0 : cc.contains t = false := by rw [h2]; exact hcc
                have hcc1 : (c ++ [taskName]).contains t = false := by
                  cases hq : (c ++ [taskName]).contains t with
                  | false => rfl
                  | true =>
                    have hcc2 : cc.contains t = true := by
                      rw [hadd2]
                      exact List.elem_iff.mpr
                        (List.mem_append.mpr (Or.inl (List.elem_iff.mp hq)))
                    rw [hcc2] at hcc0
                    exact Bool.noConfusion hcc0
                have hteq : taskName ≠ t := by
                  intro he
                  subst he
                  rw [contains_append_singleton] at hcc1
                  simp at hcc1
                rw [onlyTaskEvents_invokeCount_ne a taskName t _ honly
                  (fun he => hteq he.symm)]
                rw [hih.2 s cc mp2 evs2 rfl hcc0]

      · rw [if_neg hdeps]
        exact ih st c mp

theorem runLoop_invokeCount (b : Behavior) (reg : String → Option String)
    (mr : Nat) (t : String) (entries : List (String × OrchestrationTask)) :
    ∀ (fuel : Nat) (st : WorkflowState) (c : List String),
      invokeCount t (runLoop b reg mr entries fuel st c).events ≤
        if c.contains t = true then 0 else mr + 1 := by
  intro fuel
  induction fuel with
  | zero =>
    intro st c
    rw [runLoop]
    by_cases hc : c.length < entries.length
    · rw [if_pos hc]
      simp only [LoopOutcome.events, invokeCount]
      split_ifs <;> omega
    · rw [if_neg hc]
      simp only [LoopOutcome.events, invokeCount]
      split_ifs <;> omega
  | succ f ih =>
    intro st c
    rw [runLoop]
    by_cases hc : c.length < entries.length
    · rw [if_pos hc]
      have hpc := runPass_invokeCount b reg mr t entries st c false
      cases hp : runPass b reg mr entries st c false with
      | thrown m s1 c1 evs =>
        rw [hp] at hpc
        simpa [LoopOutcome.events, PassOutcome.events] using hpc.1
      | normal st1 c1 made evs =>
        rw [hp] at hpc
        simp only [PassOutcome.events] at hpc
        dsimp only
        by_cases hdl : made = false ∧ c1.length < entries.length
        · rw [if_pos hdl]
          simpa [LoopOutcome.events] using hpc.1
        · rw [if_neg hdl]
          have hmono : c.contains t = true → c1.contains t = true := by
            intro hct
            obtain ⟨added, hadd, _, _⟩ := runPass_normal_spec b reg mr entries st c
              false st1 c1 made evs hp
            rw [hadd]
            exact List.elem_iff.mpr
              (List.mem_append.mpr (Or.inl (List.elem_iff.mp hct)))
          have hil := ih st1 c1
          cases hrl : runLoop b reg mr entries f st1 c1 with
          | thrown m2 s2 e2 =>
            rw [hrl] at hil
            simp only [LoopOutcome.events] at hil ⊢
            rw [invokeCount_append]
            by_cases hct : c.contains t = true
            · have h1 := hpc.1
              rw [if_pos hct] at h1
              rw [if_pos hct]
              rw [if_pos (hmono hct)] at hil
              omega
            · rw [if_neg hct]
              have h1 := hpc.1
              rw [if_neg hct] at h1
              by_cases hct1 : c1.contains t = true
              · rw [if_pos hct1] at hil
                omega
              · rw [if_neg hct1] at hil
                have h0 := hpc.2 st1 c1 made evs rfl
                  (by rw [Bool.not_eq_true] at hct1; exact hct1)
                omega
          | done s2 c2 e2 =>
            rw [hrl] at hil
            simp only [LoopOutcome.events] at hil ⊢
            rw [invokeCount_append]
            by_cases hct : c.contains t = true
            · have h1 := hpc.1
              rw [if_pos hct] at h1
              rw [if_pos hct]
              rw [if_pos (hmono hct)] at hil
              omega
            · rw [if_neg hct]
              have h1 := hpc.1
              rw [if_neg hct] at h1
              by_cases hct1 : c1.contains t = true
              · rw [if_pos hct1] at hil
                omega
              · rw [if_neg hct1] at hil
                have h0 := hpc.2 st1 c1 made evs rfl
                  (by rw [Bool.not_eq_true] at hct1; exact hct1)
                omega
          | fuelOut s2 c2 e2 =>
            rw [hrl] at hil
            simp only [LoopOutcome.events] at hil ⊢
            rw [invokeCount_append]
            by_cases hct : c.contains t = true
            · have h1 := hpc.1
              rw [if_pos hct] at h1
              rw [if_pos hct]
              rw [if_pos (hmono hct)] at hil
              omega
            · rw [if_neg hct]
              have h1 := hpc.1
              rw [if_neg hct] at h1
              by_cases hct1 : c1.contains t = true
              · rw [if_pos hct1] at hil
                omega
              · rw [if_neg hct1] at hil
                have h0 := hpc.2 st1 c1 made evs rfl
                  (by rw [Bool.not_eq_true] at hct1; exact hct1)
                omega
    · rw [if_neg hc]
      simp only [LoopOutcome.events, invokeCount]
      split_ifs <;> omega

/-- C4: retry accounting.  In every run each task's worker is invoked at
most `maxRetries + 1` times; `maxRetries` is 3 when retries are enabled and
0 otherwise; every retry-loop trace has the exact shape checked by
`retryShape`: invocations numbered 1, 2, … up to `maxRetries + 1`, one
backoff of exactly `min(1000·2^(n-1), 10000)` ms awaited before retry
attempt `n` (i.e. between invocations `n` and `n+1`), no delay before the
first invocation and none after the last; and concretely, with
`maxRetries = 2` and a worker that throws on attempts 1–2 and succeeds on
attempt 3, the run makes exactly 3 invocations with inter-attempt delays of
1000 ms and 2000 ms and records the successful result. -/
theorem claim_C4 (b : Behavior) (synthB : Option AgentOutput)
    (reg : String → Option String) (mr : Nat) (plan : List OrchestrationTask)
    (init : WorkflowState) (t w : String) :
    invokeCount t (execute b synthB reg mr plan init).2 ≤ mr + 1 ∧
    retryShape w t mr 1 (retryLoop b w t mr 0).1 = true ∧
    maxRetriesOf true = 3 ∧ maxRetriesOf false = 0 ∧
    (execute (fun _ _ k => if k < 3 then none else some 42) (some 9)
        (mkRegistry []) 2 [⟨"T", "analysis", [], none⟩] freshState).2 =
      [Event.invoke "analysis" "T" 1, Event.delay "T" 1000,
       Event.invoke "analysis" "T" 2, Event.delay "T" 2000,
       Event.invoke "analysis" "T" 3, Event.record "T" 42, Event.synth] ∧
    (execute (fun _ _ k => if k < 3 then none else some 42) (some 9)
        (mkRegistry []) 2 [⟨"T", "analysis", [], none⟩]
        freshState).1.taskResults.lookup "T" = some 42 := by
  refine ⟨?_, retryShape_retryLoop b w t mr 0, rfl, rfl, rfl, rfl⟩
  have hlc := runLoop_invokeCount b reg mr t (buildTaskMap plan)
    ((buildTaskMap plan).length + 1) { init with currentStep := "executing_tasks" } []
  rw [if_neg (by rw [Bool.not_eq_true]; rfl)] at hlc
  rcases execute_events_eq b synthB reg mr plan init with he | he
  · rw [he]
    exact hlc
  · rw [he, invokeCount_append]
    simp only [invokeCount]
    omega

theorem runPass_no_synth (b : Behavior) (reg : String → Option String)
    (mr : Nat) :
    ∀ (entries : List (String × OrchestrationTask)) (st : WorkflowState)
      (c : List String) (mp : Bool),
      Event.synth ∉ (runPass b reg mr entries st c mp).events := by
  intro entries
  induction entries with
  | nil =>
    intro st c mp hmem
    simp [runPass, PassOutcome.events] at hmem
  | cons q rest ih =>
    obtain ⟨taskName, task⟩ := q
    intro st c mp
    rw [runPass]
    by_cases hskip : c.contains taskName = true
    · rw [if_pos hskip]
      exact ih st c mp
    · rw [if_neg hskip]
      by_cases hdeps : task.dependencies.all (fun d => c.contains d) = true
      · rw [if_pos hdeps]
        rcases hra : resolveAgent reg task with ⟨oa, wf⟩
        cases oa with
        | none =>
          intro hmem
          simp [PassOutcome.events] at hmem
        | some a =>
          simp only
          have honly := retryLoop_events_only b a taskName mr 0
          cases hres : (retryLoop b a taskName mr 0).2.1 with
          | none =>
            intro hmem
            simp only [PassOutcome.events] at hmem
            exact onlyTaskEvents_no_synth a taskName _ honly hmem
          | some out =>
            simp only
            cases hrec : runPass b reg mr rest
                (storeResult st taskName task.type out) (c ++ [taskName]) true with
            | thrown m s cc evs2 =>
              intro hmem
              simp only [PassOutcome.events] at hmem
              rcases List.mem_append.mp hmem with hmem | hmem
              · exact onlyTaskEvents_no_synth a taskName _ honly hmem
              · rcases List.mem_cons.mp hmem with hmem | hmem
                · exact absurd hmem (by simp)
                · have := ih (storeResult st taskName task.type out)
                    (c ++ [taskName]) true
                  rw [hrec] at this
                  exact this hmem
            | normal s cc mp2 evs2 =>
              intro hmem
              simp only [PassOutcome.events] at hmem
              rcases List.mem_append.mp hmem with hmem | hmem
              · exact onlyTaskEvents_no_synth a taskName _ honly hmem
              · rcases List.mem_cons.mp hmem with hmem | hmem
                · exact absurd hmem (by simp)
                · have := ih (storeResult st taskName task.type out)
                    (c ++ [taskName]) true
                  rw [hrec] at this
                  exact this hmem
      · rw [if_neg hdeps]
        exact ih st c mp

theorem runPass_no_warn (b : Behavior) (reg : String → Option String)
    (mr : Nat) (hreg : ∀ task, (resolveAgent reg task).1.isSome = true) :
    ∀ (entries : List (String × OrchestrationTask)) (st : WorkflowState)
      (c : List String) (mp : Bool) (ty : String),
      Event.warn ty ∉ (runPass b reg mr entries st c mp).events := by
  intro entries
  induction entries with
  | nil =>
    intro st c mp ty hmem
    simp [runPass, PassOutcome.events] at hmem
  | cons q rest ih =>
    obtain ⟨taskName, task⟩ := q
    intro st c mp ty
    rw [runPass]
    by_cases hskip : c.contains taskName = true
    · rw [if_pos hskip]
      exact ih st c mp ty
    · rw [if_neg hskip]
      by_cases hdeps : task.dependencies.all (fun d => c.contains d) = true
      · rw [if_pos hdeps]
        rcases hra : resolveAgent reg task with ⟨oa, wf⟩
        cases oa with
        | none =>
          have := hreg task
          rw [hra] at this
          simp at this
        | some a =>
          simp only
          have honly := retryLoop_events_only b a taskName mr 0
          cases hres : (retryLoop b a taskName mr 0).2.1 with
          | none =>
            intro hmem
            simp only [PassOutcome.events] at hmem
            exact onlyTaskEvents_no_warn a taskName ty _ honly hmem
          | some out =>
            simp only
            cases hrec : runPass b reg mr rest
                (storeResult st taskName task.type out) (c ++ [taskName]) true with
            | thrown m s cc evs2 =>
              intro hmem
              simp only [PassOutcome.events] at hmem
              rcases List.mem_append.mp hmem with hmem | hmem
              · exact onlyTaskEvents_no_warn a taskName ty _ honly hmem
              · rcases List.mem_cons.mp hmem with hmem | hmem
                · exact absurd hmem (by simp)
                · have := ih (storeResult st taskName task.type out)
                    (c ++ [taskName]) true ty
                  rw [hrec] at this
                  exact this hmem
            | normal s cc mp2 evs2 =>
              intro hmem
              simp only [PassOutcome.events] at hmem
              rcases List.mem_append.mp hmem with hmem | hmem
              · exact onlyTaskEvents_no_warn a taskName ty _ honly hmem
              · rcases List.mem_cons.mp hmem with hmem | hmem
                · exact absurd hmem (by simp)
                · have := ih (storeResult st taskName task.type out)
                    (c ++ [taskName]) true ty
                  rw [hrec] at this
                  exact this hmem
      · rw [if_neg hdeps]
        exact ih st c mp ty

theorem runLoop_no_synth (b : Behavior) (reg : String → Option String)
    (mr : Nat) (entries : List (String × OrchestrationTask)) :
    ∀ (fuel : Nat) (st : WorkflowState) (c : List String),
      Event.synth ∉ (runLoop b reg mr entries fuel st c).events := by
  intro fuel
  induction fuel with
  | zero =>
    intro st c hmem
    rw [runLoop] at hmem
    by_cases hc : c.length < entries.length
    · rw [if_pos hc] at hmem
      simp [LoopOutcome.events] at hmem
    · rw [if_neg hc] at hmem
      simp [LoopOutcome.events] at hmem
  | succ f ih =>
    intro st c
    rw [runLoop]
    by_cases hc : c.length < entries.length
    · rw [if_pos hc]
      have hps := runPass_no_synth b reg mr entries st c false
      cases hp : runPass b reg mr entries st c false with
      | thrown m s1 c1 evs =>
        rw [hp] at hps
        simpa [LoopOutcome.events, PassOutcome.events] using hps
      | normal st1 c1 made evs =>
        rw [hp] at hps
        simp only [PassOutcome.events] at hps
        dsimp only
        by_cases hdl : made = false ∧ c1.length < entries.length
        · rw [if_pos hdl]
          simpa [LoopOutcome.events] using hps
        · rw [if_neg hdl]
          have hil := ih st1 c1
          cases hrl : runLoop b reg mr entries f st1 c1 with
          | thrown m2 s2 e2 =>
            rw [hrl] at hil
            simp only [LoopOutcome.events] at hil ⊢
            intro hmem
            rcases List.mem_append.mp hmem with hmem | hmem
            · exact hps hmem
            · exact hil hmem
          | done s2 c2 e2 =>
            rw [hrl] at hil
            simp only [LoopOutcome.events] at hil ⊢
            intro hmem
            rcases List.mem_append.mp hmem with hmem | hmem
            · exact hps hmem
            · exact hil hmem
          | fuelOut s2 c2 e2 =>
            rw [hrl] at hil
            simp only [LoopOutcome.events] at hil ⊢
            intro hmem
            rcases List.mem_append.mp hmem with hmem | hmem
            · exact hps hmem
            · exact hil hmem
    · rw [if_neg hc]
      intro hmem
      simp [LoopOutcome.events] at hmem

theorem runLoop_no_warn (b : Behavior) (reg : String → Option String)
    (mr : Nat) (hreg : ∀ task, (resolveAgent reg task).1.isSome = true)
    (entries : List (String × OrchestrationTask)) :
    ∀ (fuel : Nat) (st : WorkflowState) (c : List String) (ty : String),
      Event.warn ty ∉ (runLoop b reg mr entries fuel st c).events := by
  intro fuel
  induction fuel with
  | zero =>
    intro st c ty hmem
    rw [runLoop] at hmem
    by_cases hc : c.length < entries.length
    · rw [if_pos hc] at hmem
      simp [LoopOutcome.events] at hmem
    · rw [if_neg hc] at hmem
      simp [LoopOutcome.events] at hmem
  | succ f ih =>
    intro st c ty
    rw [runLoop]
    by_cases hc : c.length < entries.length
    · rw [if_pos hc]
      have hps := runPass_no_warn b reg mr hreg entries st c false ty
      cases hp : runPass b reg mr entries st c false with
      | thrown m s1 c1 evs =>
        rw [hp] at hps
        simpa [LoopOutcome.events, PassOutcome.events] using hps
      | normal st1 c1 made evs =>
        rw [hp] at hps
        simp only [PassOutcome.events] at hps
        dsimp only
        by_cases hdl : made = false ∧ c1.length < entries.length
        · rw [if_pos hdl]
          simpa [LoopOutcome.events] using hps
        · rw [if_neg hdl]
          have hil := ih st1 c1 ty
          cases hrl : runLoop b reg mr entries f st1 c1 with
          | thrown m2 s2 e2 =>
            rw [hrl] at hil
            simp only [LoopOutcome.events] at hil ⊢
            intro hmem
            rcases List.mem_append.mp hmem with hmem | hmem
            · exact hps hmem
            · exact hil hmem
          | done s2 c2 e2 =>
            rw [hrl] at hil
            simp only [LoopOutcome.events] at hil ⊢
            intro hmem
            rcases List.mem_append.mp hmem with hmem | hmem
            · exact hps hmem
            · exact hil hmem
          | fuelOut s2 c2 e2 =>
            rw [hrl] at hil
            simp only [LoopOutcome.events] at hil ⊢
            intro hmem
            rcases List.mem_append.mp hmem with hmem | hmem
            · exact hps hmem
            · exact hil hmem
    · rw [if_neg hc]
      intro hmem
      simp [LoopOutcome.events] at hmem

theorem storeResult_canon (tm : List (String × OrchestrationTask)) (ty : String)
    (st : WorkflowState) (taskName : String) (task : OrchestrationTask)
    (out : AgentOutput) (htm : tm.lookup taskName = some task)
    (fld : WorkflowState → Option AgentOutput)
    (hfld : fld (storeResult st taskName task.type out) =
      if task.type = ty then some out else fld st)
    (hold : canonWitnessed tm ty (fld st) st) :
    canonWitnessed tm ty (fld (storeResult st taskName task.type out))
      (storeResult st taskName task.type out) := by
  intro hsome
  rw [hfld] at hsome
  by_cases hty : task.type = ty
  · refine ⟨taskName, task, htm, hty, ?_⟩
    rw [storeResult_taskResults, objSet_lookup_self]
    rfl
  · rw [if_neg hty] at hsome
    obtain ⟨nm, task2, h1, h2, h3⟩ := hold hsome
    refine ⟨nm, task2, h1, h2, ?_⟩
    rw [storeResult_taskResults]
    exact objSet_lookup_isSome_mono _ _ _ _ h3

theorem runPass_canon (b : Behavior) (reg : String → Option String) (mr : Nat)
    (tm : List (String × OrchestrationTask)) :
    ∀ (entries : List (String × OrchestrationTask)) (st : WorkflowState)
      (c : List String) (mp : Bool),
      (∀ e ∈ entries, tm.lookup e.1 = some e.2) →
      canonWitnessed tm "analysis" st.analysis st →
      canonWitnessed tm "context" st.context st →
      canonWitnessed tm "diagnosis" st.diagnosis st →
      canonWitnessed tm "recommendation" st.recommendation st →
      (canonWitnessed tm "analysis"
          (runPass b reg mr entries st c mp).stateOut.analysis
          (runPass b reg mr entries st c mp).stateOut ∧
       canonWitnessed tm "context"
          (runPass b reg mr entries st c mp).stateOut.context
          (runPass b reg mr entries st c mp).stateOut ∧
       canonWitnessed tm "diagnosis"
          (runPass b reg mr entries st c mp).stateOut.diagnosis
          (runPass b reg mr entries st c mp).stateOut ∧
       canonWitnessed tm "recommendation"
          (runPass b reg mr entries st c mp).stateOut.recommendation
          (runPass b reg mr entries st c mp).stateOut) := by
  intro entries
  induction entries with
  | nil =>
    intro st c mp hent hA hC hD hR
    simp only [runPass, PassOutcome.stateOut]
    exact ⟨hA, hC, hD, hR⟩
  | cons q rest ih =>
    obtain ⟨taskName, task⟩ := q
    intro st c mp hent hA hC hD hR
    have hent1 : tm.lookup taskName = some task := hent (taskName, task) (by simp)
    have hentr : ∀ e ∈ rest, tm.lookup e.1 = some e.2 :=
      fun e he => hent e (List.mem_cons_of_mem _ he)
    rw [runPass]
    by_cases hskip : c.contains taskName = true
    · rw [if_pos hskip]
      exact ih st c mp hentr hA hC hD hR
    · rw [if_neg hskip]
      by_cases hdeps : task.dependencies.all (fun d => c.contains d) = true
      · rw [if_pos hdeps]
        rcases hra : resolveAgent reg task with ⟨oa, wf⟩
        cases oa with
        | none =>
          simp only [PassOutcome.stateOut]
          exact ⟨hA, hC, hD, hR⟩
        | some a =>
          simp only
          cases hres : (retryLoop b a taskName mr 0).2.1 with
          | none =>
            simp only [PassOutcome.stateOut]
            exact ⟨hA, hC, hD, hR⟩
          | some out =>
            simp only
            have hA2 := storeResult_canon tm "analysis" st taskName task out hent1
              (fun s => s.analysis) (storeResult_analysis st taskName task.type out)
              hA
            have hC2 := storeResult_canon tm "context" st taskName task out hent1
              (fun s => s.context) (storeResult_context st taskName task.type out)
              hC
            have hD2 := storeResult_canon tm "diagnosis" st taskName task out hent1
              (fun s => s.diagnosis) (storeResult_diagnosis st taskName task.type out)
              hD
            have hR2 := storeResult_canon tm "recommendation" st taskName task out
              hent1 (fun s => s.recommendation)
              (storeResult_recommendation st taskName task.type out) hR
            have hih := ih (storeResult st taskName task.type out) (c ++ [taskName])
              true hentr hA2 hC2 hD2 hR2
            cases hrec : runPass b reg mr rest
                (storeResult st taskName task.type out) (c ++ [taskName]) true with
            | thrown m s cc evs2 =>
              rw [hrec] at hih
              simpa [PassOutcome.stateOut] using hih
            | normal s cc mp2 evs2 =>
              rw [hrec] at hih
              simpa [PassOutcome.stateOut] using hih
      · rw [if_neg hdeps]
        exact ih st c mp hentr hA hC hD hR

theorem runLoop_canon (b : Behavior) (reg : String → Option String) (mr : Nat)
    (tm : List (String × OrchestrationTask))
    (hent : ∀ e ∈ tm, tm.lookup e.1 = some e.2) :
    ∀ (fuel : Nat) (st : WorkflowState) (c : List String),
      canonWitnessed tm "analysis" st.analysis st →
      canonWitnessed tm "context" st.context st →
      canonWitnessed tm "diagnosis" st.diagnosis st →
      canonWitnessed tm "recommendation" st.recommendation st →
      (canonWitnessed tm "analysis"
          (runLoop b reg mr tm fuel st c).stateOut.analysis
          (runLoop b reg mr tm fuel st c).stateOut ∧
       canonWitnessed tm "context"
          (runLoop b reg mr tm fuel st c).stateOut.context
          (runLoop b reg mr tm fuel st c).stateOut ∧
       canonWitnessed tm "diagnosis"
          (runLoop b reg mr tm fuel st c).stateOut.diagnosis
          (runLoop b reg mr tm fuel st c).stateOut ∧
       canonWitnessed tm "recommendation"
          (runLoop b reg mr tm fuel st c).stateOut.recommendation
          (runLoop b reg mr tm fuel st c).stateOut) := by
  intro fuel
  induction fuel with
  | zero =>
    intro st c hA hC hD hR
    rw [runLoop]
    by_cases hc : c.length < tm.length
    · rw [if_pos hc]
      simp only [LoopOutcome.stateOut]
      exact ⟨hA, hC, hD, hR⟩
    · rw [if_neg hc]
      simp only [LoopOutcome.stateOut]
      exact ⟨hA, hC, hD, hR⟩
  | succ f ih =>
    intro st c hA hC hD hR
    rw [runLoop]
    by_cases hc : c.length < tm.length
    · rw [if_pos hc]
      have hpc := runPass_canon b reg mr tm tm st c false hent hA hC hD hR
      cases hp : runPass b reg mr tm st c false with
      | thrown m s1 c1 evs =>
        rw [hp] at hpc
        simpa [LoopOutcome.stateOut, PassOutcome.stateOut] using hpc
      | normal st1 c1 made evs =>
        rw [hp] at hpc
        simp only [PassOutcome.stateOut] at hpc
        dsimp only
        by_cases hdl : made = false ∧ c1.length < tm.length
        · rw [if_pos hdl]
          simpa [LoopOutcome.stateOut] using hpc
        · rw [if_neg hdl]
          have hil := ih st1 c1 hpc.1 hpc.2.1 hpc.2.2.1 hpc.2.2.2
          cases hrl : runLoop b reg mr tm f st1 c1 with
          | thrown m2 s2 e2 =>
            rw [hrl] at hil
            simpa [LoopOutcome.stateOut] using hil
          | done s2 c2 e2 =>
            rw [hrl] at hil
            simpa [LoopOutcome.stateOut] using hil
          | fuelOut s2 c2 e2 =>
            rw [hrl] at hil
            simpa [LoopOutcome.stateOut] using hil
    · rw [if_neg hc]
      simp only [LoopOutcome.stateOut]
      exact ⟨hA, hC, hD, hR⟩

/-- C7: the synthesis step runs at most once per run; with a fresh initial
state, it is attempted only if at least one recorded result belongs to one
of the run's canonical task categories (a task of the map whose type is
among the standard four); and on a plan with zero tasks the engine returns
immediately with an empty per-task results map, no events, and no synthesis
attempt. -/
theorem claim_C7 (b : Behavior) (synthB : Option AgentOutput)
    (reg : String → Option String) (mr : Nat) (plan : List OrchestrationTask) :
    synthCount (execute b synthB reg mr plan freshState).2 ≤ 1 ∧
    (Event.synth ∈ (execute b synthB reg mr plan freshState).2 →
      ∃ nm task out, (buildTaskMap plan).lookup nm = some task ∧
        task.type ∈ standardTypes ∧
        (execute b synthB reg mr plan freshState).1.taskResults.lookup nm =
          some out) ∧
    execute b synthB reg mr [] freshState =
      ({ freshState with currentStep := "complete" }, []) := by
  refine ⟨?_, ?_, rfl⟩
  · have hns := runLoop_no_synth b reg mr (buildTaskMap plan)
      ((buildTaskMap plan).length + 1)
      { freshState with currentStep := "executing_tasks" } []
    rcases execute_events_eq b synthB reg mr plan freshState with he | he
    · rw [he, synthCount_eq_zero _ hns]
      omega
    · rw [he, synthCount_append, synthCount_eq_zero _ hns]
      simp [synthCount]
  · intro hsyn
    have hns := runLoop_no_synth b reg mr (buildTaskMap plan)
      ((buildTaskMap plan).length + 1)
      { freshState with currentStep := "executing_tasks" } []
    have hcanon := runLoop_canon b reg mr (buildTaskMap plan)
      (buildTaskMap_mem_lookup plan) ((buildTaskMap plan).length + 1)
      { freshState with currentStep := "executing_tasks" } []
      (fun h => by simp [freshState] at h) (fun h => by simp [freshState] at h)
      (fun h => by simp [freshState] at h) (fun h => by simp [freshState] at h)
    simp only [execute] at hsyn ⊢
    cases hrl : runLoop b reg mr (buildTaskMap plan)
        ((buildTaskMap plan).length + 1)
        { freshState with currentStep := "executing_tasks" } [] with
    | thrown m s1 evs =>
      rw [hrl] at hsyn hns
      simp only [LoopOutcome.events] at hsyn hns
      exact absurd hsyn hns
    | fuelOut s1 c1 evs =>
      rw [hrl] at hsyn hns
      simp only [LoopOutcome.events] at hsyn hns
      exact absurd hsyn hns
    | done s1 c1 evs =>
      rw [hrl] at hsyn hns hcanon
      simp only [LoopOutcome.events, LoopOutcome.stateOut] at hsyn hns hcanon
      dsimp only at hsyn ⊢
      by_cases hsy : s1.analysis.isSome = true ∨ s1.diagnosis.isSome = true ∨
          s1.recommendation.isSome = true
      · rw [if_pos hsy]
        have hwit : ∃ nm task, (buildTaskMap plan).lookup nm = some task ∧
            task.type ∈ standardTypes ∧
            (s1.taskResults.lookup nm).isSome = true := by
          rcases hsy with hsy | hsy | hsy
          · obtain ⟨nm, task, h1, h2, h3⟩ := hcanon.1 hsy
            exact ⟨nm, task, h1, by rw [h2]; simp [standardTypes], h3⟩
          · obtain ⟨nm, task, h1, h2, h3⟩ := hcanon.2.2.1 hsy
            exact ⟨nm, task, h1, by rw [h2]; simp [standardTypes], h3⟩
          · obtain ⟨nm, task, h1, h2, h3⟩ := hcanon.2.2.2 hsy
            exact ⟨nm, task, h1, by rw [h2]; simp [standardTypes], h3⟩
        obtain ⟨nm, task, h1, h2, h3⟩ := hwit
        obtain ⟨out, hout⟩ := Option.isSome_iff_exists.mp h3
        cases synthB with
        | some o => exact ⟨nm, task, out, h1, h2, hout⟩
        | none => exact ⟨nm, task, out, h1, h2, hout⟩
      · rw [if_neg hsy] at hsyn ⊢
        exact absurd hsyn hns

/-- Witness for C7: a successful analysis run attempts synthesis, and the
recorded analysis result justifies it. -/
theorem claim_C7_witness :
    ∃ nm task out,
      (buildTaskMap [⟨"A", "analysis", [], none⟩]).lookup nm = some task ∧
      task.type ∈ standardTypes ∧
      (execute (fun _ _ _ => some 7) (some 9) (mkRegistry []) 0
        [⟨"A", "analysis", [], none⟩] freshState).1.taskResults.lookup nm =
        some out :=
  (claim_C7 (fun _ _ _ => some 7) (some 9) (mkRegistry []) 0
    [⟨"A", "analysis", [], none⟩]).2.1 (by decide)

theorem mkRegistry_analysis (custom : List (String × String)) :
    mkRegistry custom "analysis" = some (defaultWorker custom) := by
  unfold mkRegistry defaultWorker
  cases hmk : custom.lookup "analysis" with
  | none => simp [mkRegistry, hmk, standardTypes]
  | some w => simp [mkRegistry, hmk]

theorem resolveAgent_mkRegistry (custom : List (String × String))
    (task : OrchestrationTask) :
    resolveAgent (mkRegistry custom) task =
      (some (claimedResolution custom task), false) := by
  unfold resolveAgent claimedResolution
  by_cases h1 : task.type = "custom" ∧ truthyOpt task.customAgent = true
  · rw [if_pos h1, if_pos h1]
    cases hmk : mkRegistry custom (task.customAgent.getD "") with
    | some w => simp
    | none => rw [mkRegistry_analysis custom]
  · rw [if_neg h1, if_neg h1]
    cases hmk : mkRegistry custom task.type with
    | some w => simp
    | none => rw [mkRegistry_analysis custom]

/-- Counterexample to C8 as stated: for a task of unregistered type
`weird` (with the standard registry), the engine silently falls back to the
`analysis` worker — it is invoked and the run continues with no error — but
NO warning is ever recorded, contradicting the claim's "a non-fatal warning
is recorded"; moreover for a `custom` task whose `customAgent` is not
registered, the fallback goes directly to the `analysis` worker even though
a worker IS registered under the `custom` type, contradicting the claim's
"otherwise the worker registered under task.type is used". -/
theorem claim_C8_counterexample :
    (execute (fun _ _ _ => some 7) (some 9) (mkRegistry []) 0
        [⟨"T", "weird", [], none⟩] freshState).2 =
      [Event.invoke "analysis" "T" 1, Event.record "T" 7] ∧
    Event.warn "weird" ∉
      (execute (fun _ _ _ => some 7) (some 9) (mkRegistry []) 0
        [⟨"T", "weird", [], none⟩] freshState).2 ∧
    (execute (fun _ _ _ => some 7) (some 9) (mkRegistry []) 0
        [⟨"T", "weird", [], none⟩] freshState).1.error = none ∧
    (execute (fun _ _ _ => some 7) (some 9) (mkRegistry [("custom", "CW")]) 0
        [⟨"T", "custom", [], some "nope"⟩] freshState).2 =
      [Event.invoke "analysis" "T" 1, Event.record "T" 7] := by
  exact ⟨rfl, by decide, rfl, rfl⟩

/-- C8 (amended): worker resolution is JS property lookup on the
`workerAgents` object literal, prototype chain included, and it never
warns.  The key looked up is the truthy `customAgent` of a `custom`-typed
task, else `task.type`; an own key (a registered custom agent or one of the
four standard workers) yields that worker; a key inherited from
`Object.prototype` (such as `toString`) yields the truthy inherited
non-worker value, so the `|| workerAgents.analysis` fallback is skipped,
every `process` call on it throws, and a task so resolved fails all its
attempts — the run aborts with the task-failure error naming it; only a key
with no property at all falls back, silently, to the default analysis
worker and the run continues.  The `No agent found` warning branch is
unreachable, so no run with such a registry ever records a warning. -/
theorem claim_C8 (custom : List (String × String)) (task : OrchestrationTask)
    (b bf : Behavior) (synthB synthBf : Option AgentOutput) (mr mrf : Nat)
    (plan planf : List OrchestrationTask) (init initf : WorkflowState)
    (ty t : String) (task0 : OrchestrationTask)
    (htm : (buildTaskMap planf).lookup t = some task0)
    (hres : (resolveAgent (mkRegistry custom) task0).1 = some protoWorker)
    (hproto : ∀ tn k, bf protoWorker tn k = none)
    (hinv : ∃ w k, Event.invoke w t k ∈
      (execute bf synthBf (mkRegistry custom) mrf planf initf).2) :
    resolveAgent (mkRegistry custom) task =
      (some (claimedResolution custom task), false) ∧
    Event.warn ty ∉ (execute b synthB (mkRegistry custom) mr plan init).2 ∧
    (execute bf synthBf (mkRegistry custom) mrf planf initf).1.error =
      some (failMsg t (mrf + 1)) ∧
    (execute (fun w _ _ => if w = protoWorker then none else some 7) (some 9)
        (mkRegistry []) 0 [⟨"T", "toString", [], none⟩] freshState).2 =
      [Event.invoke protoWorker "T" 1] ∧
    (execute (fun w _ _ => if w = protoWorker then none else some 7) (some 9)
        (mkRegistry []) 0 [⟨"T", "toString", [], none⟩] freshState).1.error =
      some (failMsg "T" 1) := by
  refine ⟨resolveAgent_mkRegistry custom task, ?_, ?_, rfl, rfl⟩
  · have hreg : ∀ task2,
        (resolveAgent (mkRegistry custom) task2).1.isSome = true := by
      intro task2
      rw [resolveAgent_mkRegistry custom task2]
      rfl
    have hnw := runLoop_no_warn b (mkRegistry custom) mr hreg (buildTaskMap plan)
      ((buildTaskMap plan).length + 1)
      { init with currentStep := "executing_tasks" } [] ty
    intro hmem
    rcases execute_events_eq b synthB (mkRegistry custom) mr plan init with he | he
    · rw [he] at hmem
      exact hnw hmem
    · rw [he] at hmem
      rcases List.mem_append.mp hmem with h | h
      · exact hnw h
      · simp at h
  · obtain ⟨w0, k0, hmem0⟩ := hinv
    have hle : Event.invoke w0 t k0 ∈
        (runLoop bf (mkRegistry custom) mrf (buildTaskMap planf)
          ((buildTaskMap planf).length + 1)
          { initf with currentStep := "executing_tasks" } []).events := by
      rcases execute_events_eq bf synthBf (mkRegistry custom) mrf planf initf
        with he | he
      · rw [he] at hmem0
        exact hmem0
      · rw [he] at hmem0
        rcases List.mem_append.mp hmem0 with h | h
        · exact h
        · simp at h
    have hw : ∀ task2, (t, task2) ∈ buildTaskMap planf → ∀ a wf2,
        resolveAgent (mkRegistry custom) task2 = (some a, wf2) →
        ∀ k, bf a t k = none := by
      intro task2 hm a wf2 hra k
      have hl2 : (buildTaskMap planf).lookup t = some task2 :=
        lookup_of_mem_nodup _ t task2 (buildTaskMap_keys_nodup planf) hm
      rw [htm] at hl2
      injection hl2 with he2
      have hra0 : resolveAgent (mkRegistry custom) task0 = (some a, wf2) := by
        rw [he2]
        exact hra
      rw [hra0] at hres
      simp only [Option.some.injEq] at hres
      rw [hres]
      exact hproto t k
    have hLoop := runLoop_alwaysFail bf (mkRegistry custom) mrf t
      (buildTaskMap planf) hw ((buildTaskMap planf).length + 1)
      { initf with currentStep := "executing_tasks" } [] (by rfl)
    obtain ⟨s1, evs1, heq⟩ := hLoop.2 w0 k0 hle
    simp only [execute]
    rw [heq]

/-- Witness for C8 at the prototype-chain key `toString`: the task resolves
to the inherited non-worker value, no analysis fallback happens, every
attempt throws, and the run aborts naming the task. -/
theorem claim_C8_witness :
    resolveAgent (mkRegistry []) ⟨"T", "toString", [], none⟩ =
      (some (claimedResolution [] ⟨"T", "toString", [], none⟩), false) ∧
    Event.warn "weird" ∉
      (execute (fun w _ _ => if w = protoWorker then none else some 7) (some 9)
        (mkRegistry []) 0 [⟨"T", "toString", [], none⟩] freshState).2 ∧
    (execute (fun w _ _ => if w = protoWorker then none else some 7) (some 9)
        (mkRegistry []) 0 [⟨"T", "toString", [], none⟩] freshState).1.error =
      some (failMsg "T" (0 + 1)) ∧
    (execute (fun w _ _ => if w = protoWorker then none else some 7) (some 9)
        (mkRegistry []) 0 [⟨"T", "toString", [], none⟩] freshState).2 =
      [Event.invoke protoWorker "T" 1] ∧
    (execute (fun w _ _ => if w = protoWorker then none else some 7) (some 9)
        (mkRegistry []) 0 [⟨"T", "toString", [], none⟩] freshState).1.error =
      some (failMsg "T" 1) :=
  claim_C8 [] ⟨"T", "toString", [], none⟩
    (fun w _ _ => if w = protoWorker then none else some 7)
    (fun w _ _ => if w = protoWorker then none else some 7)
    (some 9) (some 9) 0 0
    [⟨"T", "toString", [], none⟩] [⟨"T", "toString", [], none⟩]
    freshState freshState "weird" "T" ⟨"T", "toString", [], none⟩
    (by decide) (by rfl) (fun tn k => rfl) ⟨protoWorker, 1, by decide⟩

theorem recordedOfType_cons_record (tm : List (String × OrchestrationTask))
    (ty taskName : String) (task : OrchestrationTask) (out : AgentOutput)
    (htm : tm.lookup taskName = some task) (evs : List Event) :
    recordedOfType tm ty (Event.record taskName out :: evs) =
      (if task.type = ty then [out] else []) ++ recordedOfType tm ty evs := by
  simp only [recordedOfType, htm]
  by_cases hty : task.type = ty
  · rw [if_pos hty, if_pos
      (show Option.map OrchestrationTask.type (some task) = some ty by simp [hty])]
  · rw [if_neg hty, if_neg
      (show ¬ Option.map OrchestrationTask.type (some task) = some ty by
        simp [hty])]

theorem mirror_field_step (tm : List (String × OrchestrationTask)) (ty : String)
    (task : OrchestrationTask) (taskName : String) (out : AgentOutput)
    (htm : tm.lookup taskName = some task) (r1 evs2 : List Event) (a : String)
    (honly : onlyTaskEvents a taskName r1)
    (old new : Option AgentOutput) (final : Option AgentOutput)
    (hnew : new = if task.type = ty then some out else old)
    (hih : final = ((recordedOfType tm ty evs2).getLast?).or new) :
    final = ((recordedOfType tm ty
      (r1 ++ Event.record taskName out :: evs2)).getLast?).or old := by
  rw [recordedOfType_append, onlyTaskEvents_recordedOfType a taskName tm ty r1 honly,
    List.nil_append, recordedOfType_cons_record tm ty taskName task out htm evs2]
  by_cases hty : task.type = ty
  · rw [if_pos hty]
    rw [List.getLast?_append]
    simp only [List.getLast?_singleton]
    rw [Option.or_assoc, Option.or_some]
    rw [hih, hnew, if_pos hty]
  · rw [if_neg hty]
    rw [List.nil_append, hih, hnew, if_neg hty]

theorem runPass_mirror (b : Behavior) (reg : String → Option String) (mr : Nat)
    (tm : List (String × OrchestrationTask)) :
    ∀ (entries : List (String × OrchestrationTask)) (st : WorkflowState)
      (c : List String) (mp : Bool),
      (∀ e ∈ entries, tm.lookup e.1 = some e.2) →
      ((runPass b reg mr entries st c mp).stateOut.analysis =
        ((recordedOfType tm "analysis"
          (runPass b reg mr entries st c mp).events).getLast?).or st.analysis ∧
       (runPass b reg mr entries st c mp).stateOut.context =
        ((recordedOfType tm "context"
          (runPass b reg mr entries st c mp).events).getLast?).or st.context ∧
       (runPass b reg mr entries st c mp).stateOut.diagnosis =
        ((recordedOfType tm "diagnosis"
          (runPass b reg mr entries st c mp).events).getLast?).or st.diagnosis ∧
       (runPass b reg mr entries st c mp).stateOut.recommendation =
        ((recordedOfType tm "recommendation"
          (runPass b reg mr entries st c mp).events).getLast?).or
            st.recommendation) := by
  intro entries
  induction entries with
  | nil =>
    intro st c mp hent
    simp [runPass, PassOutcome.stateOut, PassOutcome.events, recordedOfType]
  | cons q rest ih =>
    obtain ⟨taskName, task⟩ := q
    intro st c mp hent
    have hent1 : tm.lookup taskName = some task := hent (taskName, task) (by simp)
    have hentr : ∀ e ∈ rest, tm.lookup e.1 = some e.2 :=
      fun e he => hent e (List.mem_cons_of_mem _ he)
    rw [runPass]
    by_cases hskip : c.contains taskName = true
    · rw [if_pos hskip]
      exact ih st c mp hentr
    · rw [if_neg hskip]
      by_cases hdeps : task.dependencies.all (fun d => c.contains d) = true
      · rw [if_pos hdeps]
        rcases hra : resolveAgent reg task with ⟨oa, wf⟩
        cases oa with
        | none =>
          simp [PassOutcome.stateOut, PassOutcome.events, recordedOfType]
        | some a =>
          simp only
          have honly := retryLoop_events_only b a taskName mr 0
          cases hres : (retryLoop b a taskName mr 0).2.1 with
          | none =>
            simp only [PassOutcome.stateOut, PassOutcome.events]
            rw [onlyTaskEvents_recordedOfType a taskName tm "analysis" _ honly,
              onlyTaskEvents_recordedOfType a taskName tm "context" _ honly,
              onlyTaskEvents_recordedOfType a taskName tm "diagnosis" _ honly,
              onlyTaskEvents_recordedOfType a taskName tm "recommendation" _ honly]
            simp
          | some out =>
            simp only
            have hih := ih (storeResult st taskName task.type out) (c ++ [taskName])
              true hentr
            cases hrec : runPass b reg mr rest
                (storeResult st taskName task.type out) (c ++ [taskName]) true with
            | thrown m s cc evs2 =>
              rw [hrec] at hih
              simp only [PassOutcome.stateOut, PassOutcome.events] at hih ⊢
              refine ⟨?_, ?_, ?_, ?_⟩
              · exact mirror_field_step tm "analysis" task taskName out hent1 _ _ a
                  honly st.analysis _ _
                  (storeResult_analysis st taskName task.type out) hih.1
              · exact mirror_field_step tm "context" task taskName out hent1 _ _ a
                  honly st.context _ _
                  (storeResult_context st taskName task.type out) hih.2.1
              · exact mirror_field_step tm "diagnosis" task taskName out hent1 _ _ a
                  honly st.diagnosis _ _
                  (storeResult_diagnosis st taskName task.type out) hih.2.2.1
              · exact mirror_field_step tm "recommendation" task taskName out hent1
                  _ _ a honly st.recommendation _ _
                  (storeResult_recommendation st taskName task.type out) hih.2.2.2
            | normal s cc mp2 evs2 =>
              rw [hrec] at hih
              simp only [PassOutcome.stateOut, PassOutcome.events] at hih ⊢
              refine ⟨?_, ?_, ?_, ?_⟩
              · exact mirror_field_step tm "analysis" task taskName out hent1 _ _ a
                  honly st.analysis _ _
                  (storeResult_analysis st taskName task.type out) hih.1
              · exact mirror_field_step tm "context" task taskName out hent1 _ _ a
                  honly st.context _ _
                  (storeResult_context st taskName task.type out) hih.2.1
              · exact mirror_field_step tm "diagnosis" task taskName out hent1 _ _ a
                  honly st.diagnosis _ _
                  (storeResult_diagnosis st taskName task.type out) hih.2.2.1
              · exact mirror_field_step tm "recommendation" task taskName out hent1
                  _ _ a honly st.recommendation _ _
                  (storeResult_recommendation st taskName task.type out) hih.2.2.2
      · rw [if_neg hdeps]
        exact ih st c mp hentr

theorem or_none_eq (o : Option AgentOutput) : o.or none = o := by
  cases o <;> rfl

theorem mirror_loop_step (tm : List (String × OrchestrationTask)) (ty : String)
    (evs e : List Event) (old mid fin : Option AgentOutput)
    (h1 : mid = ((recordedOfType tm ty evs).getLast?).or old)
    (h2 : fin = ((recordedOfType tm ty e).getLast?).or mid) :
    fin = ((recordedOfType tm ty (evs ++ e)).getLast?).or old := by
  rw [recordedOfType_append, List.getLast?_append, Option.or_assoc, ← h1, ← h2]

theorem runLoop_mirror (b : Behavior) (reg : String → Option String) (mr : Nat)
    (tm : List (String × OrchestrationTask))
    (hent : ∀ e ∈ tm, tm.lookup e.1 = some e.2) :
    ∀ (fuel : Nat) (st : WorkflowState) (c : List String),
      ((runLoop b reg mr tm fuel st c).stateOut.analysis =
        ((recordedOfType tm "analysis"
          (runLoop b reg mr tm fuel st c).events).getLast?).or st.analysis ∧
       (runLoop b reg mr tm fuel st c).stateOut.context =
        ((recordedOfType tm "context"
          (runLoop b reg mr tm fuel st c).events).getLast?).or st.context ∧
       (runLoop b reg mr tm fuel st c).stateOut.diagnosis =
        ((recordedOfType tm "diagnosis"
          (runLoop b reg mr tm fuel st c).events).getLast?).or st.diagnosis ∧
       (runLoop b reg mr tm fuel st c).stateOut.recommendation =
        ((recordedOfType tm "recommendation"
          (runLoop b reg mr tm fuel st c).events).getLast?).or
            st.recommendation) := by
  intro fuel
  induction fuel with
  | zero =>
    intro st c
    rw [runLoop]
    by_cases hc : c.length < tm.length
    · rw [if_pos hc]
      simp [LoopOutcome.stateOut, LoopOutcome.events, recordedOfType]
    · rw [if_neg hc]
      simp [LoopOutcome.stateOut, LoopOutcome.events, recordedOfType]
  | succ f ih =>
    intro st c
    rw [runLoop]
    by_cases hc : c.length < tm.length
    · rw [if_pos hc]
      have hpc := runPass_mirror b reg mr tm tm st c false hent
      cases hp : runPass b reg mr tm st c false with
      | thrown m s1 c1 evs =>
        rw [hp] at hpc
        simpa [LoopOutcome.stateOut, LoopOutcome.events, PassOutcome.stateOut,
          PassOutcome.events] using hpc
      | normal st1 c1 made evs =>
        rw [hp] at hpc
        simp only [PassOutcome.stateOut, PassOutcome.events] at hpc
        dsimp only
        by_cases hdl : made = false ∧ c1.length < tm.length
        · rw [if_pos hdl]
          simpa [LoopOutcome.stateOut, LoopOutcome.events] using hpc
        · rw [if_neg hdl]
          have hil := ih st1 c1
          cases hrl : runLoop b reg mr tm f st1 c1 with
          | thrown m2 s2 e2 =>
            rw [hrl] at hil
            simp only [LoopOutcome.stateOut, LoopOutcome.events] at hil ⊢
            exact ⟨mirror_loop_step tm "analysis" evs e2 _ _ _ hpc.1 hil.1,
              mirror_loop_step tm "context" evs e2 _ _ _ hpc.2.1 hil.2.1,
              mirror_loop_step tm "diagnosis" evs e2 _ _ _ hpc.2.2.1 hil.2.2.1,
              mirror_loop_step tm "recommendation" evs e2 _ _ _ hpc.2.2.2
                hil.2.2.2⟩
          | done s2 c2 e2 =>
            rw [hrl] at hil
            simp only [LoopOutcome.stateOut, LoopOutcome.events] at hil ⊢
            exact ⟨mirror_loop_step tm "analysis" evs e2 _ _ _ hpc.1 hil.1,
              mirror_loop_step tm "context" evs e2 _ _ _ hpc.2.1 hil.2.1,
              mirror_loop_step tm "diagnosis" evs e2 _ _ _ hpc.2.2.1 hil.2.2.1,
              mirror_loop_step tm "recommendation" evs e2 _ _ _ hpc.2.2.2
                hil.2.2.2⟩
          | fuelOut s2 c2 e2 =>
            rw [hrl] at hil
            simp only [LoopOutcome.stateOut, LoopOutcome.events] at hil ⊢
            exact ⟨mirror_loop_step tm "analysis" evs e2 _ _ _ hpc.1 hil.1,
              mirror_loop_step tm "context" evs e2 _ _ _ hpc.2.1 hil.2.1,
              mirror_loop_step tm "diagnosis" evs e2 _ _ _ hpc.2.2.1 hil.2.2.1,
              mirror_loop_step tm "recommendation" evs e2 _ _ _ hpc.2.2.2
                hil.2.2.2⟩
    · rw [if_neg hc]
      simp [LoopOutcome.stateOut, LoopOutcome.events, recordedOfType]

/-- C10: result mirroring.  With a fresh initial state, each dedicated
state field (`analysis`, `context`, `diagnosis`, `recommendation`) of the
returned state equals the most recently recorded result among the run's
tasks of the matching type (in particular it is unset when no such task
completed, and when several tasks share the type the field holds the last
completed one), while the per-task results map retains every recorded
task's own result under its own name. -/
theorem claim_C10 (b : Behavior) (synthB : Option AgentOutput)
    (reg : String → Option String) (mr : Nat) (plan : List OrchestrationTask) :
    ((execute b synthB reg mr plan freshState).1.analysis =
      (recordedOfType (buildTaskMap plan) "analysis"
        (execute b synthB reg mr plan freshState).2).getLast? ∧
     (execute b synthB reg mr plan freshState).1.context =
      (recordedOfType (buildTaskMap plan) "context"
        (execute b synthB reg mr plan freshState).2).getLast? ∧
     (execute b synthB reg mr plan freshState).1.diagnosis =
      (recordedOfType (buildTaskMap plan) "diagnosis"
        (execute b synthB reg mr plan freshState).2).getLast? ∧
     (execute b synthB reg mr plan freshState).1.recommendation =
      (recordedOfType (buildTaskMap plan) "recommendation"
        (execute b synthB reg mr plan freshState).2).getLast?) ∧
    (∀ nm out, Event.record nm out ∈ (execute b synthB reg mr plan freshState).2 →
      (execute b synthB reg mr plan freshState).1.taskResults.lookup nm =
        some out) := by
  constructor
  · have hlm := runLoop_mirror b reg mr (buildTaskMap plan)
      (buildTaskMap_mem_lookup plan) ((buildTaskMap plan).length + 1)
      { freshState with currentStep := "executing_tasks" } []
    simp only [execute]
    cases hrl : runLoop b reg mr (buildTaskMap plan)
        ((buildTaskMap plan).length + 1)
        { freshState with currentStep := "executing_tasks" } [] with
    | thrown m s1 evs =>
      rw [hrl] at hlm
      simp only [LoopOutcome.stateOut, LoopOutcome.events, freshState,
        or_none_eq] at hlm
      exact hlm
    | fuelOut s1 c1 evs =>
      rw [hrl] at hlm
      simp only [LoopOutcome.stateOut, LoopOutcome.events, freshState,
        or_none_eq] at hlm
      exact hlm
    | done s1 c1 evs =>
      rw [hrl] at hlm
      simp only [LoopOutcome.stateOut, LoopOutcome.events, freshState,
        or_none_eq] at hlm
      dsimp only
      have hsrec : ∀ ty, recordedOfType (buildTaskMap plan) ty
          (evs ++ [Event.synth]) = recordedOfType (buildTaskMap plan) ty evs := by
        intro ty
        rw [recordedOfType_append]
        simp [recordedOfType]
      by_cases hsy : s1.analysis.isSome = true ∨ s1.diagnosis.isSome = true ∨
          s1.recommendation.isSome = true
      · rw [if_pos hsy]
        cases synthB with
        | some o =>
          simp only
          rw [hsrec "analysis", hsrec "context", hsrec "diagnosis",
            hsrec "recommendation"]
          exact hlm
        | none =>
          simp only
          rw [hsrec "analysis", hsrec "context", hsrec "diagnosis",
            hsrec "recommendation"]
          exact hlm
      · rw [if_neg hsy]
        exact hlm
  · exact fun nm out hmem =>
      execute_records_lookup b synthB reg mr plan freshState nm out hmem

/-- Witness for C10: two analysis tasks; the dedicated field holds the last
one's result while both stay in the per-task map. -/
theorem claim_C10_witness :
    (execute (fun _ t _ => some (if t = "A1" then 1 else 2)) (some 9)
        (mkRegistry []) 0
        [⟨"A1", "analysis", [], none⟩, ⟨"A2", "analysis", ["A1"], none⟩]
        freshState).1.analysis =
      (recordedOfType (buildTaskMap
          [⟨"A1", "analysis", [], none⟩, ⟨"A2", "analysis", ["A1"], none⟩])
        "analysis"
        (execute (fun _ t _ => some (if t = "A1" then 1 else 2)) (some 9)
          (mkRegistry []) 0
          [⟨"A1", "analysis", [], none⟩, ⟨"A2", "analysis", ["A1"], none⟩]
          freshState).2).getLast? ∧
    (execute (fun _ t _ => some (if t = "A1" then 1 else 2)) (some 9)
        (mkRegistry []) 0
        [⟨"A1", "analysis", [], none⟩, ⟨"A2", "analysis", ["A1"], none⟩]
        freshState).1.taskResults.lookup "A1" = some 1 :=
  ⟨(claim_C10 (fun _ t _ => some (if t = "A1" then 1 else 2)) (some 9)
      (mkRegistry []) 0
      [⟨"A1", "analysis", [], none⟩, ⟨"A2", "analysis", ["A1"], none⟩]).1.1,
   (claim_C10 (fun _ t _ => some (if t = "A1" then 1 else 2)) (some 9)
      (mkRegistry []) 0
      [⟨"A1", "analysis", [], none⟩, ⟨"A2", "analysis", ["A1"], none⟩]).2
     "A1" 1 (by decide)⟩

end TraceStation
